import Mathlib

/-!
Verification development for the rbbi Go package (a port of ICU4C's
rule-based break iterator).  The definitions below are a shallow embedding
of the Go sources: `StringCursor` (stringcursor.go), the `ucpTrie`
code-point trie (ucptrie.go), and the `RBBI` engine (`Next`, `safePrevious`,
`Previous` in rbbi.go).  Texts are byte lists, positions are byte offsets,
machine integers are modelled with `Nat`/`Int`, Go runtime panics (slice
index out of range, explicit `panic` calls for assertion errors) are
modelled as `Option.none`, and loops are modelled by fuel-indexed
structural recursion (a theorem conditioned on `= some _` holds for every
fuel, so fuel exhaustion never weakens a result).
-/

namespace Rbbi

/-! ## UTF-8 decoding, modelled from Go's unicode/utf8 package

`StringCursor.Next` and `StringCursor.Previous` delegate to
`utf8.DecodeRuneInString` and `utf8.DecodeLastRuneInString`.  The two
functions below reproduce those Go stdlib functions on byte lists,
including the error behaviour (`RuneError` = 0xFFFD with size 1) and the
restricted second-byte accept ranges of the `first`/`acceptRanges`
tables. -/

/-- The lower bound of the accept range for the second byte of a multi-byte
sequence, given the first byte (Go's `acceptRanges[first[b0]>>4].lo`). -/
def accept1Lo (b0 : Nat) : Nat :=
  if b0 = 0xE0 then 0xA0 else if b0 = 0xED then 0x80
  else if b0 = 0xF0 then 0x90 else 0x80

/-- The upper bound of the accept range for the second byte of a multi-byte
sequence, given the first byte (Go's `acceptRanges[first[b0]>>4].hi`). -/
def accept1Hi (b0 : Nat) : Nat :=
  if b0 = 0xED then 0x9F else if b0 = 0xF4 then 0x8F else 0xBF

/-- Go's `utf8.DecodeRuneInString` on a byte list: returns the decoded
code point and its size in bytes.  On the empty list it returns
`(RuneError, 0)`; on invalid input it returns `(RuneError, 1)`. -/
def decodeRune : List Nat → Int × Nat
  | [] => (0xFFFD, 0)
  | b0 :: rest =>
    if b0 < 0x80 then ((b0 : Int), 1)
    else if b0 < 0xC2 ∨ 0xF4 < b0 then (0xFFFD, 1)
    else if b0 ≤ 0xDF then
      match rest with
      | b1 :: _ =>
        if accept1Lo b0 ≤ b1 ∧ b1 ≤ accept1Hi b0 then
          (((b0 % 0x20) * 0x40 + b1 % 0x40 : Nat), 2)
        else (0xFFFD, 1)
      | [] => (0xFFFD, 1)
    else if b0 ≤ 0xEF then
      match rest with
      | b1 :: b2 :: _ =>
        if (accept1Lo b0 ≤ b1 ∧ b1 ≤ accept1Hi b0) ∧ (0x80 ≤ b2 ∧ b2 ≤ 0xBF) then
          (((b0 % 0x10) * 0x1000 + (b1 % 0x40) * 0x40 + b2 % 0x40 : Nat), 3)
        else (0xFFFD, 1)
      | _ => (0xFFFD, 1)
    else
      match rest with
      | b1 :: b2 :: b3 :: _ =>
        if (accept1Lo b0 ≤ b1 ∧ b1 ≤ accept1Hi b0) ∧ (0x80 ≤ b2 ∧ b2 ≤ 0xBF)
            ∧ (0x80 ≤ b3 ∧ b3 ≤ 0xBF) then
          (((b0 % 0x8) * 0x40000 + (b1 % 0x40) * 0x1000 + (b2 % 0x40) * 0x40
              + b3 % 0x40 : Nat), 4)
        else (0xFFFD, 1)
      | _ => (0xFFFD, 1)

/-- The first four bytes determine `decodeRune`; this four-argument form of
the decoder (missing bytes appear as the `getD` default 0, which lies in no
accept range) makes the branch analysis of the proofs uniform.  It is tied
to `decodeRune` by `decodeRune_eq_G` below. -/
def decodeRuneG (b0 b1 b2 b3 : Nat) : Int × Nat :=
  if b0 < 0x80 then ((b0 : Int), 1)
  else if b0 < 0xC2 ∨ 0xF4 < b0 then (0xFFFD, 1)
  else if b0 ≤ 0xDF then
    if accept1Lo b0 ≤ b1 ∧ b1 ≤ accept1Hi b0 then
      (((b0 % 0x20) * 0x40 + b1 % 0x40 : Nat), 2)
    else (0xFFFD, 1)
  else if b0 ≤ 0xEF then
    if (accept1Lo b0 ≤ b1 ∧ b1 ≤ accept1Hi b0) ∧ (0x80 ≤ b2 ∧ b2 ≤ 0xBF) then
      (((b0 % 0x10) * 0x1000 + (b1 % 0x40) * 0x40 + b2 % 0x40 : Nat), 3)
    else (0xFFFD, 1)
  else
    if (accept1Lo b0 ≤ b1 ∧ b1 ≤ accept1Hi b0) ∧ (0x80 ≤ b2 ∧ b2 ≤ 0xBF)
        ∧ (0x80 ≤ b3 ∧ b3 ≤ 0xBF) then
      (((b0 % 0x8) * 0x40000 + (b1 % 0x40) * 0x1000 + (b2 % 0x40) * 0x40
          + b3 % 0x40 : Nat), 4)
    else (0xFFFD, 1)


/-- Go's `utf8.RuneStart`: a byte that is not a continuation byte. -/
def runeStartB (b : Nat) : Bool := !(decide (0x80 ≤ b ∧ b ≤ 0xBF))

/-- The backwards scan of `utf8.DecodeLastRuneInString`: starting at index
`i` and scanning down to index `lim` (inclusive), find the first index
holding a rune-start byte, if any. -/
def lastStartScan (l : List Nat) (lim : Nat) : Nat → Option Nat
  | 0 => if lim = 0 ∧ runeStartB (l.getD 0 0) then some 0 else none
  | i+1 =>
    if i+1 < lim then none
    else if runeStartB (l.getD (i+1) 0) then some (i+1)
    else lastStartScan l lim i

/-- The index at which `utf8.DecodeLastRuneInString` starts its forward
decode, for a list of length `n+1` whose last byte is not ASCII: scan
from `end-2` down to `lim = end-4` (clamped at 0, by Nat subtraction) for
a rune-start byte; when the scan fails Go leaves `start = lim - 1`,
clamped at 0 (again Nat subtraction). -/
def lastStart (l : List Nat) (n : Nat) : Nat :=
  if n = 0 then 0
  else match lastStartScan l ((n+1) - 4) (n-1) with
    | some q => q
    | none => ((n+1) - 4) - 1

/-- Go's `utf8.DecodeLastRuneInString` on a byte list (the argument plays
the role of the prefix `s[:end]`). -/
def decodeLastRune (l : List Nat) : Int × Nat :=
  match l.length with
  | 0 => (0xFFFD, 0)
  | n+1 =>
    let b := l.getD n 0
    if b < 0x80 then ((b : Int), 1)
    else
      let start := lastStart l n
      let rs := decodeRune (l.drop start)
      if start + rs.2 ≠ n+1 then (0xFFFD, 1) else rs

/-! ## StringCursor (stringcursor.go)

The cursor over a Go string; positions are byte offsets.  `SetPosition`
returns `none` for the Go error case (the caller decides whether to ignore
it), `Next`/`Previous` return the rune, the ok flag, and the updated
cursor. -/

structure StringCursor where
  text : List Nat
  position : Nat
deriving DecidableEq, Repr

namespace StringCursor

/-- `StringCursor.SetPosition`: fails (returns `none`) iff the position is
negative or beyond the end of the string. -/
def SetPosition (c : StringCursor) (position : Int) : Option StringCursor :=
  if position < 0 then none
  else if (c.text.length : Int) < position then none
  else some { c with position := position.toNat }

/-- `StringCursor.Next`: decode the rune at the current position and
advance past it; ok is false iff the cursor is at (or past) the end. -/
def Next (c : StringCursor) : Int × Bool × StringCursor :=
  if c.text.length ≤ c.position then (-1, false, c)
  else
    let rs := decodeRune (c.text.drop c.position)
    (rs.1, true, { c with position := c.position + rs.2 })

/-- `StringCursor.Previous`: decode the rune ending at the current position
and retreat before it; ok is false iff the cursor is at the beginning. -/
def Previous (c : StringCursor) : Int × Bool × StringCursor :=
  if c.position = 0 then (-1, false, c)
  else
    let rs := decodeLastRune (c.text.take c.position)
    (rs.1, true, { c with position := c.position - rs.2 })

end StringCursor

/-! ## Code-point boundaries of a byte string

The positions visited when decoding the string from the start, one rune
(or one invalid byte) at a time; this is the rune-boundary notion of Go's
string iteration.  Used to state the cursor claims. -/

/-- The chain of positions obtained by repeatedly stepping by the decoded
rune size, starting from `p`. -/
def boundaryChain (text : List Nat) : Nat → Nat → List Nat
  | 0, p => [p]
  | f+1, p =>
    if text.length ≤ p then [p]
    else p :: boundaryChain text f (p + (decodeRune (text.drop p)).2)

/-- All code-point boundaries of `text`, from 0 to `text.length`. -/
def boundaryList (text : List Nat) : List Nat :=
  boundaryChain text text.length 0

/-- `p` lies on a code-point (UTF-8 rune) boundary of `text`. -/
def IsBoundary (text : List Nat) (p : Nat) : Prop :=
  p ∈ boundaryList text

instance (text : List Nat) (p : Nat) : Decidable (IsBoundary text p) := by
  unfold IsBoundary; infer_instance

/-! ## The code-point trie (ucptrie.go)

Fields that `fastGet` and its helpers read are kept; unused header
metadata (null offsets, shifted12HighStart, nullValue) is omitted.  Go
slice indexing panics on a negative or out-of-range index; this is
modelled by `idxGet` returning `none`. -/

inductive UcpTrieType | fast | small
deriving DecidableEq, Repr

inductive UcpTrieValueWidth | w16 | w32 | w8
deriving DecidableEq, Repr

structure UcpTrie where
  trieType : UcpTrieType
  valueWidth : UcpTrieValueWidth
  dataLength : Int
  highStart : Int
  index : List Nat
  data8 : List Nat
  data16 : List Nat
  data32 : List Nat
deriving DecidableEq, Repr

/-- Go slice indexing with an `int` index: panics (`none`) when the index
is negative or not less than the length. -/
def idxGet (l : List Nat) (i : Int) : Option Nat :=
  if h : 0 ≤ i ∧ i < (l.length : Int) then
    some (l.get ⟨i.toNat, by omega⟩)
  else none

/-- Go's arithmetic right shift on a signed integer (`x >> n`). -/
def goShr (x : Int) (n : Nat) : Int := Int.fdiv x (2 ^ n)

/-- Go's `x & (2^k - 1)` on a signed integer (two's complement), which is
the mathematical remainder. -/
def goMask (x : Int) (m : Nat) : Int := Int.emod x (m + 1)

namespace UcpTrie

/-- `ucpTrie.internalSmallIndex` (ucptrie.go): the multi-level
index-1/index-2/index-3 descent; the Go assertion failures are `none`. -/
def internalSmallIndex (t : UcpTrie) (codePoint : Int) : Option Int := do
  let i10 := goShr codePoint 14
  let i1 ←
    match t.trieType with
    | UcpTrieType.fast =>
      if 0xFFFF ≥ codePoint ∨ codePoint ≥ t.highStart then none
      else some (i10 + (1024 - 4))
    | UcpTrieType.small =>
      if codePoint ≥ t.highStart ∨ t.highStart ≤ 0x1000 then none
      else some (i10 + 64)
  let a ← idxGet t.index i1
  let i3Block0 ← idxGet t.index ((a : Int) + goMask (goShr codePoint 9) 31)
  let i3 : Int := goMask (goShr codePoint 4) 31
  if (i3Block0 : Int) < 0x8000 then do
    let dataBlock ← idxGet t.index ((i3Block0 : Int) + i3)
    pure ((dataBlock : Int) + goMask codePoint 15)
  else do
    -- 18-bit indexes stored in groups of 9 entries per 8 indexes.
    let i3Block : Int := ((i3Block0 : Int) - 0x8000) + (i3 - goMask i3 7) + goShr i3 3
    let i3' : Int := goMask i3 7
    let hi ← idxGet t.index i3Block
    let dataBlockHi : Int := goMask ((hi : Int) * 2 ^ (2 + 2 * i3'.toNat)) 0x3FFFF
                              - goMask ((hi : Int) * 2 ^ (2 + 2 * i3'.toNat)) 0xFFFF
    let lo ← idxGet t.index (i3Block + 1 + i3')
    pure (dataBlockHi + (lo : Int) + goMask codePoint 15)

/-- `ucpTrie.fastIndex`: the one-level fast path data index. -/
def fastIndex (t : UcpTrie) (codePoint : Int) : Option Int := do
  let v ← idxGet t.index (goShr codePoint 6)
  pure ((v : Int) + goMask codePoint 63)

/-- `ucpTrie.smallIndex`: data index for a code point at or above the fast
limit. -/
def smallIndex (t : UcpTrie) (codePoint : Int) : Option Int :=
  if t.highStart ≤ codePoint then some (t.dataLength - 2)
  else internalSmallIndex t codePoint

/-- `ucpTrie.codePointIndex`: data index with the 0..U+10FFFF range
check. -/
def codePointIndex (t : UcpTrie) (fastMax : Int) (codePoint : Int) : Option Int :=
  if codePoint ≤ fastMax then fastIndex t codePoint
  else if codePoint ≤ 0x10FFFF then smallIndex t codePoint
  else some (t.dataLength - 1)

/-- The final data-array read of `fastGet`: the array selected by the
header's value width, indexed by the computed data index. -/
def readData (t : UcpTrie) (i : Int) : Option Nat :=
  match t.valueWidth with
  | UcpTrieValueWidth.w8 => idxGet t.data8 i
  | UcpTrieValueWidth.w16 => idxGet t.data16 i
  | UcpTrieValueWidth.w32 => idxGet t.data32 i

/-- `ucpTrie.fastGet` (ucptrie.go): trie value for a code point.  The Go
doc comment promises the trie error value for a code point outside
0..U+10FFFF.  Note the fast limit passed to `codePointIndex` is the
constant `0xFFFF`, regardless of the trie type. -/
def fastGet (t : UcpTrie) (codePoint : Int) : Option Nat :=
  (codePointIndex t 0xFFFF codePoint).bind (readData t)

end UcpTrie

/-! ## Break data tables (rbbidata.go)

Rows and tables keep the fields the engine reads; serialization metadata
(stateCount, rowLength, value widths, the unused lookaheadHardBreak flag)
is omitted. -/

structure RbbiStateTableRow where
  accepting : Nat
  lookahead : Nat
  tagIndex : Nat
  nextStates : List Nat
deriving DecidableEq, Repr

structure RbbiStateTable where
  dictCategoriesStart : Nat
  lookaheadResultsSize : Nat
  bofRequired : Bool
  rows : List RbbiStateTableRow
deriving DecidableEq, Repr

structure RbbiData where
  forwardTable : RbbiStateTable
  reverseTable : RbbiStateTable
  trie : UcpTrie
  categoryCount : Nat
deriving DecidableEq, Repr

/-- `newRBBI` allocates `lookaheadMatches` with Go's `make([]int, n)`,
which zero-fills the slice. -/
def newLookaheadMatches (n : Nat) : List Int := List.replicate n 0

/-! ## The forward scan: `RBBI.Next` (rbbi.go lines 97-253)

The engine state during the main loop carries exactly the Go locals
(`c`, `nextOk`, `state`, `row`, `mode`, `category`, `result`,
`fDictionaryCharCount`) plus the engine fields the loop mutates
(`cursor`, `ruleStatusIndex`, `lookaheadMatches`).  One iteration of the
Go `for` loop is `nextBody`; it either returns from `Next` (`ret`),
breaks out of the loop (`brk`), or continues (`cont`).  Go panics
("Assertion error", slice index out of range) are `none`. -/

inductive RbbiRunMode | start | run | atEnd
deriving DecidableEq, Repr

structure NextSt where
  cursor : StringCursor
  c : Int
  nextOk : Bool
  state : Nat
  row : RbbiStateTableRow
  mode : RbbiRunMode
  category : Nat
  result : Nat
  ruleStatusIndex : Nat
  lookaheadMatches : List Int
  dictCount : Nat
deriving DecidableEq, Repr

/-- The value `Next` returns together with the engine/cursor state it
leaves behind. -/
structure NextRes where
  cursor : StringCursor
  lookaheadMatches : List Int
  ruleStatusIndex : Nat
  pos : Int
  ok : Bool
deriving DecidableEq, Repr

inductive NextOutcome
  | ret (f : NextRes)
  | brk (st : NextSt)
  | cont (st : NextSt)
deriving DecidableEq, Repr

/-- Lines 195-230 of `Next`: the look-ahead '/' recording, the stop-state
check, and the advance to the next character. -/
def restPhase (d : RbbiData) (st : NextSt) : Option NextOutcome :=
  let rule := st.row.lookahead
  if rule ≠ 0 ∧ rule ≤ 1 then none
  else if rule ≠ 0 ∧ d.forwardTable.lookaheadResultsSize ≤ rule then none
  else
    (if 1 < rule then
       if st.lookaheadMatches.length ≤ rule then none
       else some { st with
         lookaheadMatches := st.lookaheadMatches.set rule (st.cursor.position : Int) }
     else some st).bind fun st =>
      if st.state = 0 then some (NextOutcome.brk st)
      else if st.mode = RbbiRunMode.run then
        let step := st.cursor.Next
        some (NextOutcome.cont { st with
          c := step.1, nextOk := step.2.1, cursor := step.2.2 })
      else
        some (NextOutcome.cont
          (if st.mode = RbbiRunMode.start then { st with mode := RbbiRunMode.run } else st))

/-- Lines 169-193 of `Next`: the accepting-row handling.  An unconditional
accept records the current position (except in BOF mode) and the tag; a
completed lookahead with a slot value `≥ 0` returns immediately from
`Next`. -/
def acceptPhase (d : RbbiData) (st : NextSt) : Option NextOutcome :=
  if st.row.accepting = 1 then
    if st.mode ≠ RbbiRunMode.start then
      restPhase d { st with result := st.cursor.position, ruleStatusIndex := st.row.tagIndex }
    else
      restPhase d { st with ruleStatusIndex := st.row.tagIndex }
  else if 1 < st.row.accepting then
    if d.forwardTable.lookaheadResultsSize ≤ st.row.accepting then none
    else
      match st.lookaheadMatches.get? st.row.accepting with
      | none => none
      | some lookaheadResult =>
        if 0 ≤ lookaheadResult then
          -- Go ignores the error result of this SetPosition call.
          let cursor := (st.cursor.SetPosition lookaheadResult).getD st.cursor
          some (NextOutcome.ret
            ⟨cursor, st.lookaheadMatches, st.row.tagIndex, lookaheadResult, true⟩)
        else restPhase d st
  else restPhase d st

/-- One iteration of the main loop of `Next` (lines 129-231). -/
def nextBody (d : RbbiData) (st0 : NextSt) : Option NextOutcome :=
  if st0.nextOk = false ∧ st0.mode = RbbiRunMode.atEnd then some (NextOutcome.brk st0)
  else
    let st1 :=
      if st0.nextOk = false then { st0 with mode := RbbiRunMode.atEnd, category := 1 }
      else st0
    (if st1.mode = RbbiRunMode.run then
       (UcpTrie.fastGet d.trie st1.c).map fun v =>
         -- category = uint16(fastGet(c)) truncates to 16 bits
         let cat := v % 65536
         let st := { st1 with category := cat }
         if d.forwardTable.dictCategoriesStart ≤ cat then
           { st with dictCount := st.dictCount + 1 }
         else st
     else some st1).bind fun st2 =>
      if d.categoryCount ≤ st2.category then none
      else
        (st2.row.nextStates.get? st2.category).bind fun state =>
          (d.forwardTable.rows.get? state).bind fun row =>
            acceptPhase d { st2 with state := state, row := row }

/-- The main loop of `Next`, with fuel. -/
def nextLoop (d : RbbiData) : Nat → NextSt → Option (NextRes ⊕ NextSt)
  | 0, _ => none
  | fuel+1, st =>
    (nextBody d st).bind fun out =>
      match out with
      | NextOutcome.ret f => some (Sum.inl f)
      | NextOutcome.brk st => some (Sum.inr st)
      | NextOutcome.cont st => nextLoop d fuel st

/-- Lines 233-252 of `Next`: the post-loop processing.  If the rules
failed to advance (`result == initialPosition`), force the iterator one
code point ahead; in any case leave the cursor at the result position. -/
def nextFinish (initialPosition : Nat) (st : NextSt) : Option NextRes :=
  if st.result = initialPosition then
    -- Go ignores the error results of the SetPosition calls here.
    let cursor := (st.cursor.SetPosition (initialPosition : Int)).getD st.cursor
    let step := cursor.Next
    if step.2.1 = false then
      some ⟨step.2.2, st.lookaheadMatches, st.ruleStatusIndex, -1, false⟩
    else
      let result := step.2.2.position
      let cursor2 := (step.2.2.SetPosition (result : Int)).getD step.2.2
      some ⟨cursor2, st.lookaheadMatches, 0, (result : Int), true⟩
  else
    let cursor := (st.cursor.SetPosition (st.result : Int)).getD st.cursor
    some ⟨cursor, st.lookaheadMatches, st.ruleStatusIndex, (st.result : Int), true⟩

/-- The initial loop state of `Next` (lines 107-126): the first rune has
been consumed, the machine is in state 1, and BOF-requiring tables start
in `Start` mode with the synthetic category 2. -/
def nextStart (d : RbbiData) (lam : List Int) (cur : StringCursor)
    (row : RbbiStateTableRow) : NextSt :=
  let step := cur.Next
  if d.forwardTable.bofRequired then
    ⟨step.2.2, step.1, true, 1, row, RbbiRunMode.start, 2, cur.position, 0, lam, 0⟩
  else
    ⟨step.2.2, step.1, true, 1, row, RbbiRunMode.run, 0, cur.position, 0, lam, 0⟩

/-- `RBBI.Next` (rbbi.go): scan forward from the cursor to the next
break.  `lam` is the engine's `lookaheadMatches` field on entry. -/
def nextGo (d : RbbiData) (lam : List Int) (cur : StringCursor) (fuel : Nat) :
    Option NextRes :=
  let step := cur.Next
  if step.2.1 = false then some ⟨step.2.2, lam, 0, -1, false⟩
  else
    (d.forwardTable.rows.get? 1).bind fun row =>
      (nextLoop d fuel (nextStart d lam cur row)).bind fun out =>
        match out with
        | Sum.inl f => some f
        | Sum.inr st => nextFinish cur.position st

/-! ## The reverse safe scan: `RBBI.safePrevious` (rbbi.go lines 258-301) -/

structure SafePrevSt where
  cursor : StringCursor
  c : Int
  ok : Bool
  state : Nat
  row : RbbiStateTableRow
deriving DecidableEq, Repr

/-- The loop of `safePrevious` (lines 273-294), with fuel. -/
def safePrevLoop (d : RbbiData) : Nat → SafePrevSt → Option SafePrevSt
  | 0, _ => none
  | fuel+1, st =>
    if st.ok = false then some st
    else
      (UcpTrie.fastGet d.trie st.c).bind fun category =>
        if d.categoryCount ≤ category then none
        else
          (st.row.nextStates.get? category).bind fun state =>
            (d.reverseTable.rows.get? state).bind fun row =>
              if state = 0 then some { st with state := state, row := row }
              else
                let step := st.cursor.Previous
                safePrevLoop d fuel
                  { cursor := step.2.2, c := step.1, ok := step.2.1, state := state, row := row }

/-- `RBBI.safePrevious`: move the cursor to `fromPosition` (ignoring a
`SetPosition` error, as the Go code does) and run the reverse table
backwards until it stops or the text is exhausted. -/
def safePreviousGo (d : RbbiData) (cur : StringCursor) (fromPosition : Int) (fuel : Nat) :
    Option (StringCursor × Int × Bool) :=
  let cur := (cur.SetPosition fromPosition).getD cur
  let step := cur.Previous
  if step.2.1 = false then some (step.2.2, -1, false)
  else
    (d.reverseTable.rows.get? 1).bind fun row =>
      (safePrevLoop d fuel ⟨step.2.2, step.1, true, 1, row⟩).bind fun st =>
        some (st.cursor, (st.cursor.position : Int), true)

/-! ## Backward iteration: `RBBI.Previous` (rbbi.go lines 315-390) -/

/-- The value `Previous` returns together with the engine state it leaves
behind. -/
structure PrevRes where
  lookaheadMatches : List Int
  cursor : StringCursor
  pos : Int
  ok : Bool
deriving DecidableEq, Repr

/-- The inner forward-replay loop of `Previous` (lines 354-377): call
`Next` until the cursor reaches `startPosition`, remembering the last
break position strictly before it.  The `Next` failure there is a Go
panic (`none`). -/
def prevInner (d : RbbiData) : Nat → List Int → StringCursor → Nat → Int →
    Option (List Int × StringCursor × Int)
  | 0, _, _, _, _ => none
  | fuel+1, lam, cur, startPosition, lastBreakpoint =>
    (nextGo d lam cur (cur.text.length + 3)).bind fun res =>
      if res.ok = false then none
      else if startPosition ≤ res.cursor.position then
        some (res.lookaheadMatches, res.cursor, lastBreakpoint)
      else prevInner d fuel res.lookaheadMatches res.cursor startPosition res.pos

/-- The outer loop of `Previous` (lines 324-378) plus the final
`SetPosition` (lines 382-389); a failing `SetPosition` is a Go panic
(`none`). -/
def prevOuter (d : RbbiData) : Nat → List Int → StringCursor → Nat → Nat → Int →
    Option PrevRes
  | 0, _, _, _, _, _ => none
  | fuel+1, lam, cur, startPosition, backtraceStart, lastBreakpoint =>
    if lastBreakpoint ≠ -1 then
      match cur.SetPosition lastBreakpoint with
      | none => none
      | some cursor => some ⟨lam, cursor, lastBreakpoint, true⟩
    else
      (safePreviousGo d cur (backtraceStart : Int) (cur.text.length + 2)).bind fun sp =>
        if sp.2.2 = false then
          if backtraceStart = startPosition then some ⟨lam, sp.1, -1, false⟩
          else
            match sp.1.SetPosition (backtraceStart : Int) with
            | none => none
            | some cursor => some ⟨lam, cursor, (backtraceStart : Int), true⟩
        else
          (prevInner d (cur.text.length + 2) lam sp.1 startPosition lastBreakpoint).bind
            fun inner =>
              prevOuter d fuel inner.1 inner.2.1 startPosition sp.2.1.toNat inner.2.2

/-- `RBBI.Previous` (rbbi.go): find a break before the cursor's entry
position by backing up over safe points and replaying `Next`. -/
def previousGo (d : RbbiData) (lam : List Int) (cur : StringCursor) (fuel : Nat) :
    Option PrevRes :=
  prevOuter d fuel lam cur cur.position cur.position (-1)

/-! ## Basic facts about the UTF-8 decoders -/

theorem decodeRune_size (l : List Nat) (h : l ≠ []) :
    1 ≤ (decodeRune l).2 ∧ (decodeRune l).2 ≤ l.length ∧ (decodeRune l).2 ≤ 4 := by
  rcases l with _ | ⟨b0, _ | ⟨b1, _ | ⟨b2, _ | ⟨b3, rest⟩⟩⟩⟩
  · exact absurd rfl h
  all_goals
    simp only [decodeRune]
    split_ifs <;> refine ⟨?_, ?_, ?_⟩ <;> simp

theorem lastStartScan_le (l : List Nat) (lim : Nat) :
    ∀ i q, lastStartScan l lim i = some q → lim ≤ q ∧ q ≤ i := by
  intro i
  induction i with
  | zero =>
    intro q hq
    simp only [lastStartScan] at hq
    by_cases h : lim = 0 ∧ runeStartB (l.getD 0 0) = true
    · rw [if_pos h] at hq
      injection hq with hq
      omega
    · rw [if_neg h] at hq
      exact absurd hq (by simp)
  | succ i ih =>
    intro q hq
    simp only [lastStartScan] at hq
    by_cases h1 : i + 1 < lim
    · rw [if_pos h1] at hq
      exact absurd hq (by simp)
    · rw [if_neg h1] at hq
      by_cases h2 : runeStartB (l.getD (i+1) 0) = true
      · rw [if_pos h2] at hq
        injection hq with hq
        omega
      · rw [if_neg h2] at hq
        have := ih q hq
        omega

theorem lastStart_le (l : List Nat) (n : Nat) : lastStart l n ≤ n := by
  unfold lastStart
  split_ifs with h0
  · omega
  · rcases hq : lastStartScan l ((n+1) - 4) (n-1) with _ | q
    · simp only [hq]
      omega
    · simp only [hq]
      have := lastStartScan_le l ((n+1) - 4) (n-1) q hq
      omega

/-- Reduction of `decodeLastRune` on a list of known positive length. -/
theorem decodeLastRune_eq (l : List Nat) (n : Nat) (hn : l.length = n + 1) :
    decodeLastRune l =
      (if l.getD n 0 < 0x80 then ((l.getD n 0 : Int), 1)
       else if lastStart l n + (decodeRune (l.drop (lastStart l n))).2 ≠ n+1 then
         ((0xFFFD : Int), 1)
       else decodeRune (l.drop (lastStart l n))) := by
  unfold decodeLastRune
  rw [hn]

theorem decodeLastRune_size (l : List Nat) (h : l ≠ []) :
    1 ≤ (decodeLastRune l).2 ∧ (decodeLastRune l).2 ≤ l.length := by
  have hlen : l.length ≠ 0 := by simpa using h
  rcases hn : l.length with _ | n
  · exact absurd hn hlen
  rw [decodeLastRune_eq l n hn]
  have hstart_le : lastStart l n ≤ n := lastStart_le l n
  have hdrop : l.drop (lastStart l n) ≠ [] := by
    intro hc
    have := List.drop_eq_nil_iff.mp hc
    omega
  have hsz := decodeRune_size (l.drop (lastStart l n)) hdrop
  split_ifs with hb hspan
  · omega
  · omega
  · exact ⟨hsz.1, by omega⟩

/-! ## Round trip of the two UTF-8 decoders (claim C9)

At every code-point boundary the backward decoder recovers exactly what
the forward decoder produced, which makes `Next` and `Previous` mutual
inverses at boundaries. -/

theorem accept1Lo_ge (b0 : Nat) : 0x80 ≤ accept1Lo b0 := by
  unfold accept1Lo; split_ifs <;> norm_num

theorem accept1Hi_le (b0 : Nat) : accept1Hi b0 ≤ 0xBF := by
  unfold accept1Hi; split_ifs <;> norm_num

theorem decodeRune_eq_G (l : List Nat) (h : l ≠ []) :
    decodeRune l = decodeRuneG (l.getD 0 0) (l.getD 1 0) (l.getD 2 0) (l.getD 3 0) := by
  rcases l with _ | ⟨b0, _ | ⟨b1, _ | ⟨b2, _ | ⟨b3, rest⟩⟩⟩⟩
  · exact absurd rfl h
  all_goals
    have hLo := accept1Lo_ge b0
    simp only [decodeRune, decodeRuneG, List.getD_cons_zero, List.getD_cons_succ,
      List.getD_nil]
  all_goals try split_ifs <;> first | rfl | omega

theorem G_ascii (b0 b1 b2 b3 : Nat) (h : b0 < 0x80) :
    decodeRuneG b0 b1 b2 b3 = ((b0 : Int), 1) := by
  unfold decodeRuneG; rw [if_pos h]

theorem G_size_one (b0 b1 b2 b3 : Nat) (h0 : ¬ b0 < 0x80)
    (h : (decodeRuneG b0 b1 b2 b3).2 = 1) :
    decodeRuneG b0 b1 b2 b3 = (0xFFFD, 1) := by
  unfold decodeRuneG at h ⊢; split_ifs at h ⊢ <;> first | rfl | omega

theorem G_lead (b0 b1 b2 b3 s : Nat) (h : (decodeRuneG b0 b1 b2 b3).2 = s)
    (h2 : 2 ≤ s) : 0xC2 ≤ b0 ∧ b0 ≤ 0xF4 := by
  unfold decodeRuneG at h; split_ifs at h <;> omega

theorem G_size_eq_lead (b0 b1 b2 b3 s : Nat) (h : (decodeRuneG b0 b1 b2 b3).2 = s)
    (h2 : 2 ≤ s) :
    (b0 ≤ 0xDF → s = 2) ∧ (0xDF < b0 → b0 ≤ 0xEF → s = 3) ∧ (0xEF < b0 → s = 4) := by
  unfold decodeRuneG at h; split_ifs at h <;> (refine ⟨?_, ?_, ?_⟩ <;> omega)

theorem G_size_le (b0 b1 b2 b3 : Nat) : (decodeRuneG b0 b1 b2 b3).2 ≤ 4 := by
  unfold decodeRuneG; split_ifs <;> norm_num

theorem G_cont1 (b0 b1 b2 b3 s : Nat) (h : (decodeRuneG b0 b1 b2 b3).2 = s)
    (h2 : 2 ≤ s) : 0x80 ≤ b1 ∧ b1 ≤ 0xBF := by
  have hLo := accept1Lo_ge b0
  have hHi := accept1Hi_le b0
  unfold decodeRuneG at h; split_ifs at h <;> omega

theorem G_cont2 (b0 b1 b2 b3 s : Nat) (h : (decodeRuneG b0 b1 b2 b3).2 = s)
    (h3 : 3 ≤ s) : 0x80 ≤ b2 ∧ b2 ≤ 0xBF := by
  unfold decodeRuneG at h; split_ifs at h <;> omega

theorem G_cont3 (b0 b1 b2 b3 s : Nat) (h : (decodeRuneG b0 b1 b2 b3).2 = s)
    (h4 : 4 ≤ s) : 0x80 ≤ b3 ∧ b3 ≤ 0xBF := by
  unfold decodeRuneG at h; split_ifs at h <;> omega

theorem G_agree2 (b0 b1 b2 b3 c2 c3 : Nat) (h : (decodeRuneG b0 b1 b2 b3).2 = 2) :
    decodeRuneG b0 b1 c2 c3 = decodeRuneG b0 b1 b2 b3 := by
  unfold decodeRuneG at h ⊢; split_ifs at h ⊢ <;> first | rfl | omega

theorem G_agree3 (b0 b1 b2 b3 c3 : Nat) (h : (decodeRuneG b0 b1 b2 b3).2 = 3) :
    decodeRuneG b0 b1 b2 c3 = decodeRuneG b0 b1 b2 b3 := by
  unfold decodeRuneG at h ⊢; split_ifs at h ⊢ <;> first | rfl | omega

theorem G_start_alone (b0 : Nat) (h : 0x80 ≤ b0) :
    decodeRuneG b0 0 0 0 = (0xFFFD, 1) := by
  have hLo := accept1Lo_ge b0
  unfold decodeRuneG; split_ifs <;> first | rfl | omega

theorem take_getD (l : List Nat) (n j : Nat) (h : j < n) :
    (l.take n).getD j 0 = l.getD j 0 := by
  simp only [List.getD_eq_getElem?_getD, List.getElem?_take, h, if_pos]

theorem drop_getD (l : List Nat) (n j : Nat) :
    (l.drop n).getD j 0 = l.getD (n + j) 0 := by
  simp only [List.getD_eq_getElem?_getD, List.getElem?_drop]

/-- A list whose head is a UTF-8 continuation byte decodes to the error rune
of size one. -/
theorem decode_cont (l : List Nat) (hne : l ≠ []) (hlo : 0x80 ≤ l.getD 0 0)
    (hhi : l.getD 0 0 ≤ 0xBF) : decodeRune l = (0xFFFD, 1) := by
  rw [decodeRune_eq_G l hne]
  unfold decodeRuneG
  split_ifs <;> first | rfl | omega

/-- A valid multi-byte decode is determined by its first `s` bytes. -/
theorem decodeRune_agree (l1 l2 : List Nat) (r : Int) (s : Nat)
    (h2 : 2 ≤ s) (h : decodeRune l1 = (r, s)) (hag : l1.take s = l2.take s) :
    decodeRune l2 = (r, s) := by
  have hne1 : l1 ≠ [] := by
    intro hc; rw [hc] at h; simp only [decodeRune] at h
    have := congrArg Prod.snd h; simp at this; omega
  have hlen1 : 1 ≤ l1.length := by
    cases l1 with
    | nil => exact absurd rfl hne1
    | cons a t => simp
  have hne2 : l2 ≠ [] := by
    intro hc
    rw [hc] at hag
    simp only [List.take_nil, List.take_eq_nil_iff] at hag
    rcases hag with hag | hag
    · omega
    · exact hne1 hag
  have hG1 := decodeRune_eq_G l1 hne1
  have hG2 := decodeRune_eq_G l2 hne2
  have hgd : ∀ j, j < s → l1.getD j 0 = l2.getD j 0 := by
    intro j hj
    rw [← take_getD l1 s j hj, ← take_getD l2 s j hj, hag]
  have hs4 : s ≤ 4 := by
    rw [hG1] at h
    have := G_size_le (l1.getD 0 0) (l1.getD 1 0) (l1.getD 2 0) (l1.getD 3 0)
    rw [h] at this; exact this
  have h0 : l1.getD 0 0 = l2.getD 0 0 := hgd 0 (by omega)
  have h1 : l1.getD 1 0 = l2.getD 1 0 := hgd 1 (by omega)
  rw [hG1] at h
  rw [hG2, ← h0, ← h1]
  by_cases hs2 : s = 2
  · subst hs2
    rw [G_agree2 _ _ _ _ (l2.getD 2 0) (l2.getD 3 0) (by rw [h]), h]
  · by_cases hs3 : s = 3
    · subst hs3
      have h2' : l1.getD 2 0 = l2.getD 2 0 := hgd 2 (by omega)
      rw [← h2', G_agree3 _ _ _ _ (l2.getD 3 0) (by rw [h]), h]
    · have hs4' : s = 4 := by omega
      subst hs4'
      have h2' : l1.getD 2 0 = l2.getD 2 0 := hgd 2 (by omega)
      have h3' : l1.getD 3 0 = l2.getD 3 0 := hgd 3 (by omega)
      rw [← h2', ← h3', h]

/-- What a successful backwards scan guarantees: the found index is in range,
holds a rune-start byte, and nothing above it (up to the scan origin) does. -/
theorem lastStartScan_some (l : List Nat) (lim : Nat) :
    ∀ i q, lastStartScan l lim i = some q →
      lim ≤ q ∧ q ≤ i ∧ runeStartB (l.getD q 0) = true ∧
      ∀ j, q < j → j ≤ i → runeStartB (l.getD j 0) = false := by
  intro i
  induction i with
  | zero =>
    intro q hq
    simp only [lastStartScan] at hq
    by_cases h : lim = 0 ∧ runeStartB (l.getD 0 0) = true
    · rw [if_pos h] at hq
      injection hq with hq
      subst hq
      exact ⟨by omega, le_refl _, h.2, fun j hj1 hj2 => by omega⟩
    · rw [if_neg h] at hq
      exact absurd hq (by simp)
  | succ i ih =>
    intro q hq
    simp only [lastStartScan] at hq
    by_cases h1 : i + 1 < lim
    · rw [if_pos h1] at hq
      exact absurd hq (by simp)
    · rw [if_neg h1] at hq
      by_cases h2 : runeStartB (l.getD (i+1) 0) = true
      · rw [if_pos h2] at hq
        injection hq with hq
        subst hq
        exact ⟨by omega, le_refl _, h2, fun j hj1 hj2 => by omega⟩
      · rw [if_neg h2] at hq
        obtain ⟨ha, hb, hc, hd⟩ := ih q hq
        refine ⟨ha, by omega, hc, ?_⟩
        intro j hj1 hj2
        by_cases hj : j = i + 1
        · subst hj; simpa using h2
        · exact hd j hj1 (by omega)

/-- What a failed backwards scan guarantees: no byte between the limit and
the scan origin is a rune start. -/
theorem lastStartScan_none (l : List Nat) (lim : Nat) :
    ∀ i, lastStartScan l lim i = none →
      ∀ j, lim ≤ j → j ≤ i → runeStartB (l.getD j 0) = false := by
  intro i
  induction i with
  | zero =>
    intro hq j hj1 hj2
    have hj0 : j = 0 := by omega
    subst hj0
    simp only [lastStartScan] at hq
    by_cases h : lim = 0 ∧ runeStartB (l.getD 0 0) = true
    · rw [if_pos h] at hq; exact absurd hq (by simp)
    · rw [if_neg h] at hq
      have hlim : lim = 0 := by omega
      simp only [hlim, true_and] at h
      simpa using h
  | succ i ih =>
    intro hq j hj1 hj2
    simp only [lastStartScan] at hq
    by_cases h1 : i + 1 < lim
    · omega
    · rw [if_neg h1] at hq
      by_cases h2 : runeStartB (l.getD (i+1) 0) = true
      · rw [if_pos h2] at hq; exact absurd hq (by simp)
      · rw [if_neg h2] at hq
        by_cases hj : j = i + 1
        · subst hj; simpa using h2
        · exact ih hq j hj1 (by omega)

/-- A byte is not a rune start exactly when it is a continuation byte. -/
theorem runeStartB_false_iff (b : Nat) :
    runeStartB b = false ↔ 0x80 ≤ b ∧ b ≤ 0xBF := by
  unfold runeStartB
  simp

/-- Every element of a boundary chain started within the text stays within
the text. -/
theorem boundaryChain_le (text : List Nat) :
    ∀ f q p, q ≤ text.length → p ∈ boundaryChain text f q → p ≤ text.length := by
  intro f
  induction f with
  | zero =>
    intro q p hq hp
    simp only [boundaryChain, List.mem_singleton] at hp
    omega
  | succ f ih =>
    intro q p hq hp
    simp only [boundaryChain] at hp
    by_cases hend : text.length ≤ q
    · rw [if_pos hend] at hp
      simp only [List.mem_singleton] at hp
      omega
    · rw [if_neg hend] at hp
      simp only [List.mem_cons] at hp
      rcases hp with hp | hp
      · omega
      · have hne : text.drop q ≠ [] := by
          intro hc
          have := List.drop_eq_nil_iff.mp hc
          omega
        have hsz := decodeRune_size (text.drop q) hne
        rw [List.length_drop] at hsz
        exact ih _ p (by omega) hp

/-- Every element of a boundary chain other than its start has a
predecessor in the chain one decoded rune earlier. -/
theorem boundaryChain_pred (text : List Nat) :
    ∀ f q p, p ∈ boundaryChain text f q → p ≠ q →
      ∃ u, u ∈ boundaryChain text f q ∧ u < text.length ∧
        u + (decodeRune (text.drop u)).2 = p := by
  intro f
  induction f with
  | zero =>
    intro q p hp hne
    simp only [boundaryChain, List.mem_singleton] at hp
    exact absurd hp hne
  | succ f ih =>
    intro q p hp hne
    simp only [boundaryChain] at hp
    by_cases hend : text.length ≤ q
    · rw [if_pos hend] at hp
      simp only [List.mem_singleton] at hp
      exact absurd hp hne
    · rw [if_neg hend] at hp
      simp only [List.mem_cons] at hp
      rcases hp with hp | hp
      · exact absurd hp hne
      · by_cases hq : p = q + (decodeRune (text.drop q)).2
        · refine ⟨q, ?_, by omega, hq.symm⟩
          simp only [boundaryChain, if_neg hend]
          exact List.mem_cons_self q _
        · obtain ⟨u, hu1, hu2, hu3⟩ := ih _ p hp hq
          refine ⟨u, ?_, hu2, hu3⟩
          simp only [boundaryChain, if_neg hend]
          exact List.mem_cons_of_mem q hu1

/-- A nonzero boundary has a boundary predecessor exactly one decoded rune
earlier. -/
theorem boundary_pred (text : List Nat) (p : Nat) (hb : IsBoundary text p)
    (hp : p ≠ 0) :
    ∃ u, IsBoundary text u ∧ u < text.length ∧
      u + (decodeRune (text.drop u)).2 = p := by
  obtain ⟨u, hu1, hu2, hu3⟩ := boundaryChain_pred text text.length 0 p hb hp
  exact ⟨u, hu1, hu2, hu3⟩

/-- Boundaries never lie beyond the end of the text. -/
theorem boundary_le (text : List Nat) (p : Nat) (hb : IsBoundary text p) :
    p ≤ text.length :=
  boundaryChain_le text text.length 0 p (Nat.zero_le _) hb

theorem runeStartB_true_iff (b : Nat) :
    runeStartB b = true ↔ (b < 0x80 ∨ 0xBF < b) := by
  unfold runeStartB
  simp only [Bool.not_eq_true', decide_eq_false_iff_not, not_and, not_le]
  omega

/-- If a rune-start byte at `q` begins a decode that spans strictly past a
boundary `p`, while every byte after `q` up to `p` is a continuation byte,
the boundary chain cannot actually contain `p`. -/
theorem run_walk (text : List Nat) (q p : Nat) (hqp : q < p)
    (hb : IsBoundary text p)
    (hstart : runeStartB (text.getD q 0) = true)
    (hcont : ∀ j, q < j → j ≤ p → 0x80 ≤ text.getD j 0 ∧ text.getD j 0 ≤ 0xBF)
    (hspan : p < q + (decodeRune (text.drop q)).2) : False := by
  have hq80 : text.getD q 0 < 0x80 ∨ 0xBF < text.getD q 0 :=
    (runeStartB_true_iff _).mp hstart
  have key : ∀ m, m ≤ p → q < m → IsBoundary text m → False := by
    intro m
    induction m using Nat.strong_induction_on with
    | _ m ih =>
      intro hmp hqm hbm
      obtain ⟨u, hbu, hulen, hustep⟩ := boundary_pred text m hbm (by omega)
      rcases Nat.lt_trichotomy u q with hlt | heq | hgt
      · -- the predecessor rune would cover the start byte at q
        have hne : text.drop u ≠ [] := by
          intro hc; have := List.drop_eq_nil_iff.mp hc; omega
        have hsz := decodeRune_size (text.drop u) hne
        have hG := decodeRune_eq_G (text.drop u) hne
        have hsnd : (decodeRuneG ((text.drop u).getD 0 0) ((text.drop u).getD 1 0)
            ((text.drop u).getD 2 0) ((text.drop u).getD 3 0)).2
            = (decodeRune (text.drop u)).2 := (congrArg Prod.snd hG).symm
        have hrel : q - u = 1 ∨ q - u = 2 ∨ q - u = 3 := by omega
        rcases hrel with h1 | h2 | h3
        · have hc1 := G_cont1 _ _ _ _ _ hsnd (by omega)
          rw [drop_getD] at hc1
          have hq' : u + 1 = q := by omega
          rw [hq'] at hc1
          omega
        · have hc2 := G_cont2 _ _ _ _ _ hsnd (by omega)
          rw [drop_getD] at hc2
          have hq' : u + 2 = q := by omega
          rw [hq'] at hc2
          omega
        · have hc3 := G_cont3 _ _ _ _ _ hsnd (by omega)
          rw [drop_getD] at hc3
          have hq' : u + 3 = q := by omega
          rw [hq'] at hc3
          omega
      · -- the predecessor is q itself: the span leaves no room for m
        subst heq
        omega
      · -- the predecessor is a continuation byte, hence a one-byte error
        -- rune, so m - 1 is also a boundary in the window: recurse
        have hne : text.drop u ≠ [] := by
          intro hc; have := List.drop_eq_nil_iff.mp hc; omega
        have hgd0 : (text.drop u).getD 0 0 = text.getD u 0 := drop_getD text u 0
        have hcu := hcont u hgt (by omega)
        have hdec := decode_cont (text.drop u) hne (by omega) (by omega)
        rw [hdec] at hustep
        exact ih u (by omega) (by omega) hgt hbu
  exact key p le_rfl hqp hb

/-- Backward decode of a prefix ending just after an ASCII byte. -/
theorem lastRune_ascii (text : List Nat) (p : Nat) (hp : p < text.length)
    (hb0 : text.getD p 0 < 0x80) :
    decodeLastRune (text.take (p + 1)) = ((text.getD p 0 : Int), 1) := by
  have hlenl : (text.take (p + 1)).length = p + 1 := by
    rw [List.length_take]; omega
  rw [decodeLastRune_eq (text.take (p + 1)) p hlenl]
  rw [take_getD text (p + 1) p (by omega)]
  rw [if_pos hb0]

/-- Backward decode of a prefix ending just after a valid multi-byte rune
that starts at a boundary: the scan finds the rune's lead byte and the
forward decode is recovered. -/
theorem lastRune_valid (text : List Nat) (p : Nat) (r : Int) (s : Nat)
    (hp : p < text.length)
    (hdec : decodeRune (text.drop p) = (r, s)) (hs2 : 2 ≤ s) :
    decodeLastRune (text.take (p + s)) = (r, s) := by
  have hne : text.drop p ≠ [] := by
    intro hc; have := List.drop_eq_nil_iff.mp hc; omega
  have hsz := decodeRune_size (text.drop p) hne
  rw [List.length_drop, hdec] at hsz
  have hsle : s ≤ text.length - p := hsz.2.1
  have hs4 : s ≤ 4 := hsz.2.2
  have hG := decodeRune_eq_G (text.drop p) hne
  have hGdec := hG.symm.trans hdec
  rw [drop_getD text p 0, drop_getD text p 1, drop_getD text p 2,
    drop_getD text p 3] at hGdec
  have hsnd : (decodeRuneG (text.getD (p + 0) 0) (text.getD (p + 1) 0)
      (text.getD (p + 2) 0) (text.getD (p + 3) 0)).2 = s := by rw [hGdec]
  have hlead := G_lead _ _ _ _ _ hsnd hs2
  have hstart : runeStartB (text.getD p 0) = true := by
    rw [runeStartB_true_iff]
    have he : p + 0 = p := rfl
    rw [he] at hlead
    omega
  have hcont : ∀ j, 1 ≤ j → j < s →
      0x80 ≤ text.getD (p + j) 0 ∧ text.getD (p + j) 0 ≤ 0xBF := by
    intro j hj1 hjs
    have hj3 : j = 1 ∨ j = 2 ∨ j = 3 := by omega
    rcases hj3 with hj | hj | hj <;> subst hj
    · exact G_cont1 _ _ _ _ _ hsnd hs2
    · exact G_cont2 _ _ _ _ _ hsnd (by omega)
    · exact G_cont3 _ _ _ _ _ hsnd (by omega)
  have hlenl : (text.take (p + s)).length = p + s := by
    rw [List.length_take]; omega
  have htg : ∀ j, j < p + s → (text.take (p + s)).getD j 0 = text.getD j 0 :=
    fun j hj => take_getD text (p + s) j hj
  rw [decodeLastRune_eq (text.take (p + s)) (p + s - 1) (by omega)]
  have hblast : 0x80 ≤ text.getD (p + s - 1) 0 ∧ text.getD (p + s - 1) 0 ≤ 0xBF := by
    have := hcont (s - 1) (by omega) (by omega)
    have he : p + (s - 1) = p + s - 1 := by omega
    rwa [he] at this
  have hnb : ¬ (text.take (p + s)).getD (p + s - 1) 0 < 0x80 := by
    rw [htg (p + s - 1) (by omega)]; omega
  rw [if_neg hnb]
  have hls : lastStart (text.take (p + s)) (p + s - 1) = p := by
    unfold lastStart
    rw [if_neg (by omega : ¬ p + s - 1 = 0)]
    rcases hscan : lastStartScan (text.take (p + s)) ((p + s - 1 + 1) - 4)
        ((p + s - 1) - 1) with _ | q
    · exfalso
      have hnone := lastStartScan_none (text.take (p + s)) _ _ hscan p
        (by omega) (by omega)
      rw [htg p (by omega), hstart] at hnone
      exact Bool.true_eq_false.mp hnone
    · obtain ⟨hq1, hq2, hq3, hq4⟩ := lastStartScan_some _ _ _ _ hscan
      rcases Nat.lt_trichotomy q p with hlt | heq | hgt
      · exfalso
        have := hq4 p hlt (by omega)
        rw [htg p (by omega), hstart] at this
        exact Bool.true_eq_false.mp this
      · exact heq
      · exfalso
        rw [htg q (by omega)] at hq3
        have hrel : q - p = 1 ∨ q - p = 2 := by omega
        have hq' : p + (q - p) = q := by omega
        rw [runeStartB_true_iff] at hq3
        rcases hrel with hr1 | hr1
        · have := hcont 1 (by omega) (by omega)
          rw [hr1] at hq'
          rw [hq'] at this
          omega
        · have := hcont 2 (by omega) (by omega)
          rw [hr1] at hq'
          rw [hq'] at this
          omega
  rw [hls]
  have hdt : (text.take (p + s)).drop p = (text.drop p).take s := by
    rw [List.drop_take]
    congr 1
    omega
  have hagree : decodeRune ((text.take (p + s)).drop p) = (r, s) := by
    refine decodeRune_agree (text.drop p) _ r s hs2 hdec ?_
    rw [hdt, List.take_take, Nat.min_self]
  rw [hagree]
  rw [show ((r, s) : Int × Nat).2 = s from rfl]
  rw [if_neg (by omega : ¬ p + s ≠ p + s - 1 + 1)]

/-- Backward decode of a prefix ending just after a non-ASCII byte at a
boundary: no rune can end exactly there, so the error rune is produced,
matching the forward decode's error at the boundary. -/
theorem lastRune_err (text : List Nat) (p : Nat)
    (hb : IsBoundary text p) (hp : p < text.length)
    (hb0 : ¬ text.getD p 0 < 0x80) :
    decodeLastRune (text.take (p + 1)) = (0xFFFD, 1) := by
  have hlenl : (text.take (p + 1)).length = p + 1 := by
    rw [List.length_take]; omega
  have htg : ∀ j, j < p + 1 → (text.take (p + 1)).getD j 0 = text.getD j 0 :=
    fun j hj => take_getD text (p + 1) j hj
  rw [decodeLastRune_eq (text.take (p + 1)) p hlenl]
  rw [htg p (by omega), if_neg hb0]
  by_cases hp0 : p = 0
  · -- the whole prefix is the single non-ASCII byte
    subst hp0
    have hls : lastStart (text.take 1) 0 = 0 := by
      unfold lastStart
      rw [if_pos rfl]
    rw [show (0:Nat) + 1 = 1 from rfl] at hlenl htg ⊢
    rw [hls, List.drop_zero]
    have hlne : text.take 1 ≠ [] := by
      intro hc; rw [hc] at hlenl; simp at hlenl
    have hG1 := decodeRune_eq_G (text.take 1) hlne
    have hlj : ∀ j, 1 ≤ j → (text.take 1).getD j 0 = 0 := by
      intro j hj
      apply List.getD_eq_default
      rw [hlenl]
      omega
    rw [htg 0 (by omega), hlj 1 (by omega), hlj 2 (by omega),
      hlj 3 (by omega)] at hG1
    rw [hG1, G_start_alone _ (by omega)]
    rw [show ((0xFFFD : Int), 1).2 = 1 from rfl]
    rw [if_neg (by omega : ¬ (0:Nat) + 1 ≠ 0 + 1)]
  · -- p ≥ 1: case on the backwards scan
    rcases hscan : lastStartScan (text.take (p + 1)) ((p + 1) - 4) (p - 1)
        with _ | q
    · -- no start byte in the window at all
      have hls : lastStart (text.take (p + 1)) p = ((p + 1) - 4) - 1 := by
        unfold lastStart
        rw [if_neg hp0, hscan]
      rw [hls]
      have hnone := lastStartScan_none (text.take (p + 1)) _ _ hscan
      by_cases hp4 : 4 ≤ p
      · -- the fallback start leaves a five-byte suffix: impossible size
        have hst : ((p + 1) - 4) - 1 = p - 4 := by omega
        rw [hst]
        have hdne : (text.take (p + 1)).drop (p - 4) ≠ [] := by
          intro hc
          have := List.drop_eq_nil_iff.mp hc
          rw [hlenl] at this
          omega
        have hsz := decodeRune_size _ hdne
        rw [List.length_drop, hlenl] at hsz
        rw [if_pos (by omega :
          p - 4 + (decodeRune ((text.take (p + 1)).drop (p - 4))).2 ≠ p + 1)]
      · -- near the front: byte 0 is a continuation byte
        have hst : ((p + 1) - 4) - 1 = 0 := by omega
        rw [hst, List.drop_zero]
        have h0 := hnone 0 (by omega) (by omega)
        rw [runeStartB_false_iff, htg 0 (by omega)] at h0
        have hlne : text.take (p + 1) ≠ [] := by
          intro hc; rw [hc] at hlenl; simp at hlenl
        have hdc := decode_cont (text.take (p + 1)) hlne
          (by rw [htg 0 (by omega)]; omega) (by rw [htg 0 (by omega)]; omega)
        rw [hdc]
        rw [show ((0xFFFD : Int), 1).2 = 1 from rfl]
        rw [if_pos (by omega : (0:Nat) + 1 ≠ p + 1)]
    · -- the scan found a start byte q < p
      have hls : lastStart (text.take (p + 1)) p = q := by
        unfold lastStart
        rw [if_neg hp0, hscan]
      rw [hls]
      obtain ⟨hq1, hq2, hq3, hq4⟩ := lastStartScan_some _ _ _ _ hscan
      by_cases hcnd : q + (decodeRune ((text.take (p + 1)).drop q)).2 = p + 1
      · -- a rune from q would span strictly past the boundary p
        exfalso
        rcases hdq : decodeRune ((text.take (p + 1)).drop q) with ⟨r', s'⟩
        rw [hdq] at hcnd
        rw [show ((r', s') : Int × Nat).2 = s' from rfl] at hcnd
        have hs'2 : 2 ≤ s' := by omega
        have hdt : (text.take (p + 1)).drop q = (text.drop q).take s' := by
          rw [List.drop_take]
          congr 1
          omega
        have hagree : decodeRune (text.drop q) = (r', s') := by
          refine decodeRune_agree ((text.take (p + 1)).drop q) _ r' s' hs'2 hdq ?_
          rw [hdt, List.take_take, Nat.min_self]
        have hqlen : q < text.length := by omega
        have hne : text.drop q ≠ [] := by
          intro hc; have := List.drop_eq_nil_iff.mp hc; omega
        have hszq := decodeRune_size (text.drop q) hne
        rw [hagree] at hszq
        have hs'4 : s' ≤ 4 := hszq.2.2
        have hGq := decodeRune_eq_G (text.drop q) hne
        have hGdq := hGq.symm.trans hagree
        rw [drop_getD text q 0, drop_getD text q 1, drop_getD text q 2,
          drop_getD text q 3] at hGdq
        have hsndq : (decodeRuneG (text.getD (q + 0) 0) (text.getD (q + 1) 0)
            (text.getD (q + 2) 0) (text.getD (q + 3) 0)).2 = s' := by rw [hGdq]
        have hcontq : ∀ j, 1 ≤ j → j < s' →
            0x80 ≤ text.getD (q + j) 0 ∧ text.getD (q + j) 0 ≤ 0xBF := by
          intro j hj1 hjs
          have hj3 : j = 1 ∨ j = 2 ∨ j = 3 := by omega
          rcases hj3 with hj | hj | hj <;> subst hj
          · exact G_cont1 _ _ _ _ _ hsndq hs'2
          · exact G_cont2 _ _ _ _ _ hsndq (by omega)
          · exact G_cont3 _ _ _ _ _ hsndq (by omega)
        have hstartq : runeStartB (text.getD q 0) = true := by
          rw [htg q (by omega)] at hq3
          exact hq3
        have hcontw : ∀ j, q < j → j ≤ p →
            0x80 ≤ text.getD j 0 ∧ text.getD j 0 ≤ 0xBF := by
          intro j hj1 hj2
          by_cases hjp : j = p
          · subst hjp
            have := hcontq (j - q) (by omega) (by omega)
            have he : q + (j - q) = j := by omega
            rwa [he] at this
          · have := hq4 j hj1 (by omega)
            rw [htg j (by omega), runeStartB_false_iff] at this
            exact this
        refine run_walk text q p (by omega) hb hstartq hcontw ?_
        rw [hagree]
        rw [show ((r', s') : Int × Nat).2 = s' from rfl]
        omega
      · rw [if_pos hcnd]

/-- At a code-point boundary `p` inside the text, decoding backwards from
the position just after the rune decoded forwards at `p` recovers exactly
that forward decode: the same rune (or error rune) and the same size. -/
theorem boundary_lastRune (text : List Nat) (p : Nat) (r : Int) (s : Nat)
    (hb : IsBoundary text p) (hp : p < text.length)
    (hdec : decodeRune (text.drop p) = (r, s)) :
    decodeLastRune (text.take (p + s)) = (r, s) := by
  have hne : text.drop p ≠ [] := by
    intro hc; have := List.drop_eq_nil_iff.mp hc; omega
  have hG := decodeRune_eq_G (text.drop p) hne
  have hGdec := hG.symm.trans hdec
  rw [drop_getD text p 0, drop_getD text p 1, drop_getD text p 2,
    drop_getD text p 3] at hGdec
  by_cases hb0 : text.getD p 0 < 0x80
  · have hA := G_ascii (text.getD (p + 0) 0) (text.getD (p + 1) 0)
      (text.getD (p + 2) 0) (text.getD (p + 3) 0)
      (by rw [show p + 0 = p from rfl]; exact hb0)
    rw [hA] at hGdec
    have hr : ((text.getD (p + 0) 0 : Int)) = r := congrArg Prod.fst hGdec
    have hs : (1 : Nat) = s := congrArg Prod.snd hGdec
    rw [← hs]
    rw [lastRune_ascii text p hp hb0]
    rw [show p + 0 = p from rfl] at hr
    rw [hr]
  · by_cases hs2 : 2 ≤ s
    · exact lastRune_valid text p r s hp hdec hs2
    · have hsz := decodeRune_size (text.drop p) hne
      rw [hdec] at hsz
      have hs1 : s = 1 := by
        have h1 : 1 ≤ ((r, s) : Int × Nat).2 := hsz.1
        rw [show ((r, s) : Int × Nat).2 = s from rfl] at h1
        omega
      subst hs1
      have hsnd : (decodeRuneG (text.getD (p + 0) 0) (text.getD (p + 1) 0)
          (text.getD (p + 2) 0) (text.getD (p + 3) 0)).2 = 1 := by rw [hGdec]
      have hE := G_size_one (text.getD (p + 0) 0) (text.getD (p + 1) 0)
        (text.getD (p + 2) 0) (text.getD (p + 3) 0)
        (by rw [show p + 0 = p from rfl]; exact hb0) hsnd
      rw [hE] at hGdec
      have hr : ((0xFFFD : Int)) = r := congrArg Prod.fst hGdec
      rw [lastRune_err text p hb hp hb0, hr]

/-- Forward round trip at a boundary: `Next` then `Previous` restores the
cursor and reports the same code point. -/
theorem next_then_previous (text : List Nat) (p : Nat)
    (hb : IsBoundary text p) (hp : p < text.length) :
    (StringCursor.Next ⟨text, p⟩).2.1 = true ∧
    ((StringCursor.Next ⟨text, p⟩).2.2.Previous).2.1 = true ∧
    ((StringCursor.Next ⟨text, p⟩).2.2.Previous).1 = (StringCursor.Next ⟨text, p⟩).1 ∧
    ((StringCursor.Next ⟨text, p⟩).2.2.Previous).2.2 = (⟨text, p⟩ : StringCursor) := by
  rcases hdec : decodeRune (text.drop p) with ⟨r, s⟩
  have hne : text.drop p ≠ [] := by
    intro hc; have := List.drop_eq_nil_iff.mp hc; omega
  have hsz := decodeRune_size (text.drop p) hne
  rw [hdec, List.length_drop] at hsz
  rw [show ((r, s) : Int × Nat).2 = s from rfl] at hsz
  have hN : StringCursor.Next ⟨text, p⟩ = (r, true, ⟨text, p + s⟩) := by
    unfold StringCursor.Next
    rw [if_neg (by dsimp only; omega)]
    dsimp only
    rw [hdec]
  have hL := boundary_lastRune text p r s hb hp hdec
  have hP : StringCursor.Previous ⟨text, p + s⟩ = (r, true, ⟨text, p⟩) := by
    unfold StringCursor.Previous
    rw [if_neg (by dsimp only; omega)]
    dsimp only
    rw [hL]
    rw [show ((r, s) : Int × Nat).2 = s from rfl,
      show ((r, s) : Int × Nat).1 = r from rfl]
    rw [show p + s - s = p from by omega]
  rw [hN, hP]
  exact ⟨rfl, rfl, rfl, rfl⟩

/-- Backward round trip at a boundary: `Previous` then `Next` restores the
cursor and reports the same code point. -/
theorem previous_then_next (text : List Nat) (p : Nat)
    (hb : IsBoundary text p) (hp0 : 0 < p) :
    (StringCursor.Previous ⟨text, p⟩).2.1 = true ∧
    ((StringCursor.Previous ⟨text, p⟩).2.2.Next).2.1 = true ∧
    ((StringCursor.Previous ⟨text, p⟩).2.2.Next).1 = (StringCursor.Previous ⟨text, p⟩).1 ∧
    ((StringCursor.Previous ⟨text, p⟩).2.2.Next).2.2 = (⟨text, p⟩ : StringCursor) := by
  obtain ⟨q, hbq, hqlen, hqstep⟩ := boundary_pred text p hb (by omega)
  rcases hdec : decodeRune (text.drop q) with ⟨r, s⟩
  rw [hdec] at hqstep
  rw [show ((r, s) : Int × Nat).2 = s from rfl] at hqstep
  have hL := boundary_lastRune text q r s hbq hqlen hdec
  rw [hqstep] at hL
  have hP : StringCursor.Previous ⟨text, p⟩ = (r, true, ⟨text, q⟩) := by
    unfold StringCursor.Previous
    rw [if_neg (by dsimp only; omega)]
    dsimp only
    rw [hL]
    rw [show ((r, s) : Int × Nat).2 = s from rfl,
      show ((r, s) : Int × Nat).1 = r from rfl]
    rw [show p - s = q from by omega]
  have hN : StringCursor.Next ⟨text, q⟩ = (r, true, ⟨text, p⟩) := by
    unfold StringCursor.Next
    rw [if_neg (by dsimp only; omega)]
    dsimp only
    rw [hdec]
    rw [show ((r, s) : Int × Nat).2 = s from rfl,
      show ((r, s) : Int × Nat).1 = r from rfl]
    rw [hqstep]
  rw [hP, hN]
  exact ⟨rfl, rfl, rfl, rfl⟩

/-- Claim C9: for every `StringCursor` whose position lies on a code-point
boundary: if the position is not at end of text, `Next()` followed by
`Previous()` succeeds, yields the same code point from both calls and
restores the cursor to its original state; symmetrically, if the position
is not at the start of text, `Previous()` followed by `Next()` succeeds,
yields the same code point and restores the cursor. -/
theorem c9_cursor_roundtrip (c : StringCursor)
    (hb : IsBoundary c.text c.position) :
    (c.position < c.text.length →
      (c.Next).2.1 = true ∧
      ((c.Next).2.2.Previous).2.1 = true ∧
      ((c.Next).2.2.Previous).1 = (c.Next).1 ∧
      ((c.Next).2.2.Previous).2.2 = c) ∧
    (0 < c.position →
      (c.Previous).2.1 = true ∧
      ((c.Previous).2.2.Next).2.1 = true ∧
      ((c.Previous).2.2.Next).1 = (c.Previous).1 ∧
      ((c.Previous).2.2.Next).2.2 = c) :=
  ⟨fun hp => next_then_previous c.text c.position hb hp,
   fun hp0 => previous_then_next c.text c.position hb hp0⟩

theorem c9_cursor_roundtrip_witness :
    IsBoundary [0x61, 0xC3, 0xA9] 1 ∧
    ((StringCursor.Next ⟨[0x61, 0xC3, 0xA9], 1⟩).2.2.Previous).2.2
      = (⟨[0x61, 0xC3, 0xA9], 1⟩ : StringCursor) ∧
    ((StringCursor.Previous ⟨[0x61, 0xC3, 0xA9], 1⟩).2.2.Next).2.2
      = (⟨[0x61, 0xC3, 0xA9], 1⟩ : StringCursor) :=
  ⟨by decide,
   ((c9_cursor_roundtrip ⟨[0x61, 0xC3, 0xA9], 1⟩ (by decide)).1 (by decide)).2.2.2,
   ((c9_cursor_roundtrip ⟨[0x61, 0xC3, 0xA9], 1⟩ (by decide)).2 (by decide)).2.2.2⟩

/-! ## Basic facts about the StringCursor -/

namespace StringCursor

theorem Next_at_end (c : StringCursor) (h : c.text.length ≤ c.position) :
    c.Next = (-1, false, c) := by
  simp [Next, h]

theorem Next_lt (c : StringCursor) (h : c.position < c.text.length) :
    c.Next = ((decodeRune (c.text.drop c.position)).1, true,
      ⟨c.text, c.position + (decodeRune (c.text.drop c.position)).2⟩) := by
  simp only [Next, if_neg (by omega : ¬ c.text.length ≤ c.position)]

theorem Next_ok_iff (c : StringCursor) : (c.Next).2.1 = true ↔ c.position < c.text.length := by
  constructor
  · intro h
    by_contra hc
    rw [Next_at_end c (by omega)] at h
    simp at h
  · intro h
    rw [Next_lt c h]

theorem Next_pos_bounds (c : StringCursor) (h : c.position < c.text.length) :
    c.position < (c.Next).2.2.position ∧ (c.Next).2.2.position ≤ c.text.length ∧
      (c.Next).2.2.text = c.text := by
  rw [Next_lt c h]
  have hd : c.text.drop c.position ≠ [] := by
    intro hc
    have := List.drop_eq_nil_iff.mp hc
    omega
  have hs := decodeRune_size _ hd
  have hlen : (c.text.drop c.position).length = c.text.length - c.position := by
    simp
  dsimp only
  refine ⟨by omega, by omega, rfl⟩

theorem Previous_at_start (c : StringCursor) (h : c.position = 0) :
    c.Previous = (-1, false, c) := by
  simp [Previous, h]

theorem Previous_lt (c : StringCursor) (h : 0 < c.position) :
    c.Previous = ((decodeLastRune (c.text.take c.position)).1, true,
      ⟨c.text, c.position - (decodeLastRune (c.text.take c.position)).2⟩) := by
  simp only [Previous, if_neg (by omega : ¬ c.position = 0)]

theorem Previous_ok_iff (c : StringCursor) : (c.Previous).2.1 = true ↔ 0 < c.position := by
  constructor
  · intro h
    by_contra hc
    rw [Previous_at_start c (by omega)] at h
    simp at h
  · intro h
    rw [Previous_lt c h]

theorem Previous_pos_bounds (c : StringCursor) (h : 0 < c.position)
    (hle : c.position ≤ c.text.length) :
    (c.Previous).2.2.position < c.position ∧ (c.Previous).2.2.text = c.text := by
  rw [Previous_lt c h]
  have hlt : (c.text.take c.position).length = c.position := by
    simp [Nat.min_eq_left hle]
  have ht : c.text.take c.position ≠ [] := by
    intro hc
    rw [hc] at hlt
    simp at hlt
    omega
  have hs := decodeLastRune_size _ ht
  dsimp only
  exact ⟨by omega, rfl⟩

theorem SetPosition_none_iff (c : StringCursor) (p : Int) :
    c.SetPosition p = none ↔ (p < 0 ∨ (c.text.length : Int) < p) := by
  unfold SetPosition
  split_ifs with h1 h2 <;> simp_all

theorem SetPosition_some (c : StringCursor) (p : Int) (h0 : 0 ≤ p)
    (hle : p ≤ (c.text.length : Int)) :
    c.SetPosition p = some ⟨c.text, p.toNat⟩ := by
  unfold SetPosition
  split_ifs with h1 h2
  · omega
  · omega
  · rfl

theorem Previous_weak (c : StringCursor) :
    (c.Previous).2.2.text = c.text ∧ (c.Previous).2.2.position ≤ c.position := by
  by_cases h : c.position = 0
  · rw [Previous_at_start c h]
    exact ⟨rfl, Nat.le_refl _⟩
  · rw [Previous_lt c (by omega)]
    exact ⟨rfl, Nat.sub_le _ _⟩

end StringCursor

/-! ## The loop invariant of `Next`

`NextInv text entry st` holds of every state of the main loop of `Next`
when the engine's `lookaheadMatches` slots were all negative ("unset") on
entry: the cursor stays inside the text and strictly after the entry
position, `result` is either still the entry position or a position
strictly after it, and every look-ahead slot is either still unset or a
recorded position strictly after the entry position. -/

def NextInv (text : List Nat) (entry : Nat) (st : NextSt) : Prop :=
  st.cursor.text = text ∧ entry < st.cursor.position ∧
  st.cursor.position ≤ text.length ∧
  (st.result = entry ∨ (entry < st.result ∧ st.result ≤ text.length)) ∧
  (∀ x ∈ st.lookaheadMatches, x < 0 ∨ ((entry : Int) < x ∧ x ≤ (text.length : Int)))

/-- What holds of a value returned from inside the main loop of `Next`
under the invariant. -/
def RetOK (text : List Nat) (entry : Nat) (f : NextRes) : Prop :=
  f.ok = true ∧ (entry : Int) < f.pos ∧ f.pos ≤ (text.length : Int) ∧
  f.cursor = ⟨text, f.pos.toNat⟩

theorem restPhase_inv (d : RbbiData) (text : List Nat) (entry : Nat) (st : NextSt)
    (hinv : NextInv text entry st) (out : NextOutcome) (h : restPhase d st = some out) :
    (∀ f, out = NextOutcome.ret f → False) ∧
    (∀ st', out = NextOutcome.brk st' → NextInv text entry st') ∧
    (∀ st', out = NextOutcome.cont st' → NextInv text entry st') := by
  obtain ⟨htext, hpos, hposle, hres, hlam⟩ := hinv
  unfold restPhase at h
  dsimp only at h
  by_cases h1 : st.row.lookahead ≠ 0 ∧ st.row.lookahead ≤ 1
  · rw [if_pos h1] at h; cases h
  rw [if_neg h1] at h
  by_cases h2 : st.row.lookahead ≠ 0 ∧ d.forwardTable.lookaheadResultsSize ≤ st.row.lookahead
  · rw [if_pos h2] at h; cases h
  rw [if_neg h2] at h
  rw [Option.bind_eq_some] at h
  obtain ⟨st1, hst1, h⟩ := h
  have hinv1 : NextInv text entry st1 := by
    by_cases h3 : 1 < st.row.lookahead
    · rw [if_pos h3] at hst1
      by_cases h4 : st.lookaheadMatches.length ≤ st.row.lookahead
      · rw [if_pos h4] at hst1; cases hst1
      · rw [if_neg h4] at hst1
        injection hst1 with hst1
        subst hst1
        refine ⟨htext, hpos, hposle, hres, ?_⟩
        intro x hx
        rcases List.mem_or_eq_of_mem_set hx with hx | hx
        · exact hlam x hx
        · subst hx
          exact Or.inr ⟨by exact_mod_cast hpos, by exact_mod_cast hposle⟩
    · rw [if_neg h3] at hst1
      injection hst1 with hst1
      subst hst1
      exact ⟨htext, hpos, hposle, hres, hlam⟩
  obtain ⟨htext1, hpos1, hposle1, hres1, hlam1⟩ := hinv1
  by_cases h5 : st1.state = 0
  · -- stop state: break
    rw [if_pos h5] at h
    injection h with h
    subst h
    refine ⟨?_, ?_, ?_⟩
    · intro f hf
      cases hf
    · intro st' hst'
      injection hst' with hst'
      subst hst'
      exact ⟨htext1, hpos1, hposle1, hres1, hlam1⟩
    · intro st' hst'
      cases hst'
  rw [if_neg h5] at h
  by_cases h6 : st1.mode = RbbiRunMode.run
  · -- run mode: advance the cursor
    rw [if_pos h6] at h
    injection h with h
    subst h
    refine ⟨?_, ?_, ?_⟩
    · intro f hf
      cases hf
    · intro st' hst'
      cases hst'
    · intro st' hst'
      injection hst' with hst'
      subst hst'
      by_cases hc : st1.cursor.position < st1.cursor.text.length
      · have hb := StringCursor.Next_pos_bounds st1.cursor hc
        rw [htext1] at hb
        exact ⟨by rw [hb.2.2], by dsimp only; omega, by dsimp only; omega, hres1, hlam1⟩
      · rw [StringCursor.Next_at_end st1.cursor (by omega)]
        exact ⟨htext1, hpos1, hposle1, hres1, hlam1⟩
  · -- start mode or end mode: no cursor movement
    rw [if_neg h6] at h
    injection h with h
    subst h
    refine ⟨?_, ?_, ?_⟩
    · intro f hf
      cases hf
    · intro st' hst'
      cases hst'
    intro st' hst'
    injection hst' with hst'
    subst hst'
    by_cases h7 : st1.mode = RbbiRunMode.start
    · rw [if_pos h7]
      exact ⟨htext1, hpos1, hposle1, hres1, hlam1⟩
    · rw [if_neg h7]
      exact ⟨htext1, hpos1, hposle1, hres1, hlam1⟩

theorem acceptPhase_inv (d : RbbiData) (text : List Nat) (entry : Nat) (st : NextSt)
    (hinv : NextInv text entry st) (out : NextOutcome) (h : acceptPhase d st = some out) :
    (∀ f, out = NextOutcome.ret f → RetOK text entry f) ∧
    (∀ st', out = NextOutcome.brk st' → NextInv text entry st') ∧
    (∀ st', out = NextOutcome.cont st' → NextInv text entry st') := by
  have hinvc := hinv
  obtain ⟨htext, hpos, hposle, hres, hlam⟩ := hinvc
  unfold acceptPhase at h
  by_cases h1 : st.row.accepting = 1
  · rw [if_pos h1] at h
    by_cases hm : st.mode ≠ RbbiRunMode.start
    · -- unconditional accept, not in BOF mode
      rw [if_pos hm] at h
      have hinv' : NextInv text entry
          { st with result := st.cursor.position, ruleStatusIndex := st.row.tagIndex } :=
        ⟨htext, hpos, hposle, Or.inr ⟨hpos, hposle⟩, hlam⟩
      have := restPhase_inv d text entry _ hinv' out h
      exact ⟨fun f hf => (this.1 f hf).elim, this.2.1, this.2.2⟩
    · -- unconditional accept in BOF mode
      rw [if_neg hm] at h
      have hinv' : NextInv text entry { st with ruleStatusIndex := st.row.tagIndex } :=
        ⟨htext, hpos, hposle, hres, hlam⟩
      have := restPhase_inv d text entry _ hinv' out h
      exact ⟨fun f hf => (this.1 f hf).elim, this.2.1, this.2.2⟩
  rw [if_neg h1] at h
  by_cases h2 : 1 < st.row.accepting
  · -- lookahead completion
    rw [if_pos h2] at h
    by_cases h3 : d.forwardTable.lookaheadResultsSize ≤ st.row.accepting
    · rw [if_pos h3] at h; cases h
    rw [if_neg h3] at h
    rcases hget : st.lookaheadMatches.get? st.row.accepting with _ | v
    · rw [hget] at h
      cases h
    · rw [hget] at h
      dsimp only at h
      by_cases h4 : 0 ≤ v
      · -- slot is set: immediate return
        rw [if_pos h4] at h
        injection h with h
        subst h
        refine ⟨?_, ?_, ?_⟩
        · intro f hf
          injection hf with hf
          subst hf
          have hmem : v ∈ st.lookaheadMatches := List.get?_mem hget
          rcases hlam v hmem with hv | hv
          · omega
          · refine ⟨rfl, hv.1, hv.2, ?_⟩
            dsimp only
            rw [StringCursor.SetPosition_some st.cursor v h4 (by rw [htext]; exact hv.2)]
            simp [htext]
        · intro st' hst'
          cases hst'
        · intro st' hst'
          cases hst'
      · -- slot unset: ignored
        rw [if_neg h4] at h
        have := restPhase_inv d text entry st hinv out h
        exact ⟨fun f hf => (this.1 f hf).elim, this.2.1, this.2.2⟩
  · -- not an accepting row
    rw [if_neg h2] at h
    have := restPhase_inv d text entry st hinv out h
    exact ⟨fun f hf => (this.1 f hf).elim, this.2.1, this.2.2⟩

theorem nextBody_inv (d : RbbiData) (text : List Nat) (entry : Nat) (st : NextSt)
    (hinv : NextInv text entry st) (out : NextOutcome) (h : nextBody d st = some out) :
    (∀ f, out = NextOutcome.ret f → RetOK text entry f) ∧
    (∀ st', out = NextOutcome.brk st' → NextInv text entry st') ∧
    (∀ st', out = NextOutcome.cont st' → NextInv text entry st') := by
  obtain ⟨htext, hpos, hposle, hres, hlam⟩ := hinv
  unfold nextBody at h
  by_cases hA : st.nextOk = false ∧ st.mode = RbbiRunMode.atEnd
  · rw [if_pos hA] at h
    injection h with h
    subst h
    refine ⟨?_, ?_, ?_⟩
    · intro f hf
      cases hf
    · intro st' hst'
      injection hst' with hst'
      subst hst'
      exact ⟨htext, hpos, hposle, hres, hlam⟩
    · intro st' hst'
      cases hst'
  rw [if_neg hA] at h
  dsimp only at h
  set st1 := (if st.nextOk = false then
      { st with mode := RbbiRunMode.atEnd, category := 1 } else st) with hst1def
  have hinv1 : NextInv text entry st1 := by
    rw [hst1def]
    split_ifs
    · exact ⟨htext, hpos, hposle, hres, hlam⟩
    · exact ⟨htext, hpos, hposle, hres, hlam⟩
  obtain ⟨htext1, hpos1, hposle1, hres1, hlam1⟩ := hinv1
  rw [Option.bind_eq_some] at h
  obtain ⟨st2, hst2, h⟩ := h
  have hinv2 : NextInv text entry st2 := by
    by_cases hR : st1.mode = RbbiRunMode.run
    · rw [if_pos hR] at hst2
      rcases hfg : UcpTrie.fastGet d.trie st1.c with _ | v
      · rw [hfg] at hst2
        cases hst2
      · rw [hfg] at hst2
        injection hst2 with hst2
        subst hst2
        dsimp only
        split_ifs
        · exact ⟨htext1, hpos1, hposle1, hres1, hlam1⟩
        · exact ⟨htext1, hpos1, hposle1, hres1, hlam1⟩
    · rw [if_neg hR] at hst2
      injection hst2 with hst2
      subst hst2
      exact ⟨htext1, hpos1, hposle1, hres1, hlam1⟩
  obtain ⟨htext2, hpos2, hposle2, hres2, hlam2⟩ := hinv2
  by_cases hC : d.categoryCount ≤ st2.category
  · rw [if_pos hC] at h
    cases h
  rw [if_neg hC] at h
  rw [Option.bind_eq_some] at h
  obtain ⟨state, hstate, h⟩ := h
  rw [Option.bind_eq_some] at h
  obtain ⟨row, hrow, h⟩ := h
  exact acceptPhase_inv d text entry { st2 with state := state, row := row }
    ⟨htext2, hpos2, hposle2, hres2, hlam2⟩ out h

theorem nextLoop_inv (d : RbbiData) (text : List Nat) (entry : Nat) :
    ∀ fuel (st : NextSt) (out : NextRes ⊕ NextSt), NextInv text entry st →
      nextLoop d fuel st = some out →
      (∀ f, out = Sum.inl f → RetOK text entry f) ∧
      (∀ st', out = Sum.inr st' → NextInv text entry st') := by
  intro fuel
  induction fuel with
  | zero =>
    intro st out _ h
    cases h
  | succ fuel ih =>
    intro st out hinv h
    simp only [nextLoop] at h
    rw [Option.bind_eq_some] at h
    obtain ⟨o, ho, h⟩ := h
    have hb := nextBody_inv d text entry st hinv o ho
    cases o with
    | ret f =>
      injection h with h
      subst h
      refine ⟨?_, ?_⟩
      · intro f' hf'
        injection hf' with hf'
        subst hf'
        exact hb.1 f rfl
      · intro st' hst'
        cases hst'
    | brk st1 =>
      injection h with h
      subst h
      refine ⟨?_, ?_⟩
      · intro f' hf'
        cases hf'
      · intro st' hst'
        injection hst' with hst'
        subst hst'
        exact hb.2.1 st1 rfl
    | cont st1 =>
      exact ih st1 out (hb.2.2 st1 rfl) h

theorem nextFinish_inv (text : List Nat) (entry : Nat) (st : NextSt) (res : NextRes)
    (hinv : NextInv text entry st) (hlt : entry < text.length)
    (h : nextFinish entry st = some res) : RetOK text entry res := by
  obtain ⟨htext, hpos, hposle, hres, hlam⟩ := hinv
  subst htext
  unfold nextFinish at h
  by_cases hE : st.result = entry
  · rw [if_pos hE] at h
    rw [StringCursor.SetPosition_some st.cursor (entry : Int) (by omega)
      (by exact_mod_cast le_of_lt hlt)] at h
    simp only [Option.getD_some] at h
    rw [StringCursor.Next_lt ⟨st.cursor.text, (entry : Int).toNat⟩
      (by simpa using hlt)] at h
    simp only [Int.toNat_natCast] at h
    have hdrop : st.cursor.text.drop entry ≠ [] := by
      intro hc
      have := List.drop_eq_nil_iff.mp hc
      omega
    have hsz := decodeRune_size _ hdrop
    have hdl : (st.cursor.text.drop entry).length = st.cursor.text.length - entry := by simp
    rw [StringCursor.SetPosition_some _ _ (by omega) (by dsimp only; omega)] at h
    simp only [Option.getD_some] at h
    injection h with h
    subst h
    refine ⟨rfl, ?_, ?_, ?_⟩
    · dsimp only
      omega
    · dsimp only
      omega
    · dsimp only
  · rw [if_neg hE] at h
    have hrng : entry < st.result ∧ st.result ≤ st.cursor.text.length := by
      rcases hres with h' | h'
      · exact absurd h' hE
      · exact h'
    rw [StringCursor.SetPosition_some st.cursor (st.result : Int) (by omega)
      (by exact_mod_cast hrng.2)] at h
    simp only [Option.getD_some] at h
    injection h with h
    subst h
    refine ⟨rfl, ?_, ?_, ?_⟩
    · dsimp only
      exact_mod_cast hrng.1
    · dsimp only
      exact_mod_cast hrng.2
    · dsimp only

/-- Claim C1, amended: when every `lookaheadMatches` slot is negative
("unset") on entry — which, contrary to the spec, `Next` itself does not
ensure — `Next` fails exactly when the cursor is at (or past) the end of
text, leaves the cursor unchanged on failure, and on success returns a
position strictly after the entry position with the cursor placed exactly
there. -/
theorem c1_next_amended (d : RbbiData) (lam : List Int) (cur : StringCursor) (fuel : Nat)
    (res : NextRes) (hlam : ∀ x ∈ lam, x < 0) (h : nextGo d lam cur fuel = some res) :
    (res.ok = false ↔ cur.text.length ≤ cur.position) ∧
    (res.ok = false → res.cursor = cur) ∧
    (res.ok = true → (cur.position : Int) < res.pos ∧
      (res.cursor.position : Int) = res.pos ∧ res.cursor.text = cur.text) := by
  unfold nextGo at h
  by_cases hend : cur.text.length ≤ cur.position
  · rw [StringCursor.Next_at_end cur hend] at h
    dsimp only at h
    simp only [if_pos rfl] at h
    injection h with h
    subst h
    refine ⟨?_, ?_, ?_⟩
    · simpa using hend
    · intro _
      rfl
    · intro hok
      exact absurd hok (by simp)
  · have hlt : cur.position < cur.text.length := by omega
    have hok : (cur.Next).2.1 = true := (StringCursor.Next_ok_iff cur).mpr hlt
    dsimp only at h
    rw [if_neg (by simp [hok])] at h
    rw [Option.bind_eq_some] at h
    obtain ⟨row1, hrow1, h⟩ := h
    rw [Option.bind_eq_some] at h
    obtain ⟨out, hout, h⟩ := h
    have hinv0 : NextInv cur.text cur.position (nextStart d lam cur row1) := by
      have hb := StringCursor.Next_pos_bounds cur hlt
      unfold nextStart
      split_ifs
      · exact ⟨hb.2.2, hb.1, hb.2.1, Or.inl rfl, fun x hx => Or.inl (hlam x hx)⟩
      · exact ⟨hb.2.2, hb.1, hb.2.1, Or.inl rfl, fun x hx => Or.inl (hlam x hx)⟩
    have hloop := nextLoop_inv d cur.text cur.position fuel _ out hinv0 hout
    have hret : RetOK cur.text cur.position res := by
      cases out with
      | inl f =>
        injection h with h
        exact h ▸ hloop.1 f rfl
      | inr st =>
        exact nextFinish_inv cur.text cur.position st res (hloop.2 st rfl) hlt h
    obtain ⟨hok, hlt', hle', hcur⟩ := hret
    refine ⟨?_, ?_, ?_⟩
    · rw [hok]
      simp
      omega
    · intro hc
      rw [hok] at hc
      cases hc
    · intro _
      refine ⟨hlt', ?_, ?_⟩
      · rw [hcur]
        dsimp only
        omega
      · rw [hcur]

/-! ## Concrete break data used in counterexamples and witnesses

`trieA` is a fast 16-bit trie mapping every code point below `highStart`
to category 3 (in particular `a` = U+0061); the state tables below are
small machines over category count 4 (0 = error, 1 = eof, 2 = bof,
3 = the category of `a`). -/

def trieA : UcpTrie :=
  ⟨UcpTrieType.fast, UcpTrieValueWidth.w16, 34, 0x110000, [0, 0], [],
   List.replicate 34 3, []⟩

def rowStop : RbbiStateTableRow := ⟨0, 0, 0, [0, 0, 0, 0]⟩

/-- A forward table whose state 2 (reached from the start state on one
`a`) is a lookahead-completion row (`accepting = 2`, tag 7) with no
recording row anywhere: any non-negative value in slot 2 is returned
directly. -/
def dataC1 : RbbiData :=
  ⟨⟨4, 3, false, [rowStop, ⟨0, 0, 0, [0, 0, 0, 2]⟩, ⟨2, 0, 7, [0, 0, 0, 0]⟩]⟩,
   ⟨4, 3, false, [rowStop]⟩, trieA, 4⟩

/-- Forward rules that treat `aa` as one unit (accept with tag 5 after
two `a`s); the reverse table steps back exactly three runes before
stopping, which is *not* a safe restart distance for these rules. -/
def dataAA : RbbiData :=
  ⟨⟨4, 2, false, [rowStop, ⟨0, 0, 0, [0, 0, 0, 2]⟩, ⟨0, 0, 0, [0, 0, 0, 3]⟩,
      ⟨1, 0, 5, [0, 0, 0, 0]⟩]⟩,
   ⟨4, 2, false, [rowStop, ⟨0, 0, 0, [0, 0, 0, 2]⟩, ⟨0, 0, 0, [0, 0, 0, 3]⟩, rowStop]⟩,
   trieA, 4⟩

/-- A forward table that transitions straight to the stop state without
ever accepting: `Next` must take its forced-advance path. -/
def dataStop : RbbiData :=
  ⟨⟨4, 2, false, [rowStop, ⟨0, 0, 0, [0, 0, 0, 0]⟩]⟩,
   ⟨4, 2, false, [rowStop]⟩, trieA, 4⟩

/-- A reverse table that never transitions to the stop state: the safe
reverse scan runs off the start of the text. -/
def dataNoStopRev : RbbiData :=
  ⟨⟨4, 2, false, [rowStop]⟩,
   ⟨4, 2, false, [⟨0, 0, 0, [1, 1, 1, 1]⟩, ⟨0, 0, 0, [1, 1, 1, 1]⟩]⟩, trieA, 4⟩

/-! ## Claim C1 -/

/-- Claim C1 as stated is false: on the engine `dataC1` freshly
constructed (`lookaheadMatches = make([]int, 3)`, i.e. all zero) with the
cursor at position 1 of `"aa"`, `Next` returns `ok = true` with position
0, which is not strictly greater than the entry position 1 (the
zero-initialized look-ahead slot is treated as a saved position), and the
cursor is moved backwards to 0. -/
theorem c1_counterexample :
    nextGo dataC1 (newLookaheadMatches 3) ⟨[97, 97], 1⟩ 10 =
      some ⟨⟨[97, 97], 0⟩, [0, 0, 0], 7, 0, true⟩ ∧ ¬ ((1 : Int) < 0) := by
  constructor
  · decide
  · decide

/-- Witness for `c1_next_amended` at `dataAA`, text `"aa"`, entry 0. -/
theorem c1_next_amended_witness :
    (∀ x ∈ ([-1, -1] : List Int), x < 0) ∧
    ((((⟨⟨[97, 97], 2⟩, [-1, -1], 5, 2, true⟩ : NextRes).ok = false) ↔
        ([97, 97] : List Nat).length ≤ (⟨[97, 97], 0⟩ : StringCursor).position) ∧
      ((⟨⟨[97, 97], 2⟩, [-1, -1], 5, 2, true⟩ : NextRes).ok = false →
        (⟨⟨[97, 97], 2⟩, [-1, -1], 5, 2, true⟩ : NextRes).cursor = ⟨[97, 97], 0⟩) ∧
      ((⟨⟨[97, 97], 2⟩, [-1, -1], 5, 2, true⟩ : NextRes).ok = true →
        (((⟨[97, 97], 0⟩ : StringCursor).position : Int) <
            (⟨⟨[97, 97], 2⟩, [-1, -1], 5, 2, true⟩ : NextRes).pos ∧
          ((⟨⟨[97, 97], 2⟩, [-1, -1], 5, 2, true⟩ : NextRes).cursor.position : Int) =
            (⟨⟨[97, 97], 2⟩, [-1, -1], 5, 2, true⟩ : NextRes).pos ∧
          (⟨⟨[97, 97], 2⟩, [-1, -1], 5, 2, true⟩ : NextRes).cursor.text =
            (⟨[97, 97], 0⟩ : StringCursor).text))) :=
  ⟨by decide,
   c1_next_amended dataAA [-1, -1] ⟨[97, 97], 0⟩ 10 ⟨⟨[97, 97], 2⟩, [-1, -1], 5, 2, true⟩
     (by decide) (by decide)⟩

/-! ## Claim C2 -/

/-- Claim C2 as stated is false: `Next` does not clear `lookaheadMatches`
and the zero-filled slots produced by `newRBBI` count as *set* (the
completion test is `lookaheadResult >= 0`), so the slot contents on entry
change the result of the very same scan: with the freshly-allocated
all-zero slots the scan returns position 0, while with all-unset
(negative) slots it returns position 2. -/
theorem c2_counterexample :
    nextGo dataC1 (newLookaheadMatches 3) ⟨[97, 97], 1⟩ 10 =
      some ⟨⟨[97, 97], 0⟩, [0, 0, 0], 7, 0, true⟩ ∧
    nextGo dataC1 [-1, -1, -1] ⟨[97, 97], 1⟩ 10 =
      some ⟨⟨[97, 97], 2⟩, [-1, -1, -1], 0, 2, true⟩ ∧
    ((0 : Int) ≠ 2) := by
  refine ⟨?_, ?_, ?_⟩ <;> decide

theorem restPhase_lam (d : RbbiData) (st : NextSt) (out : NextOutcome)
    (hrule : st.row.lookahead = 0) (h : restPhase d st = some out) :
    (∀ f, out = NextOutcome.ret f → False) ∧
    (∀ st', out = NextOutcome.brk st' →
      st'.lookaheadMatches = st.lookaheadMatches ∧ st'.row = st.row) ∧
    (∀ st', out = NextOutcome.cont st' →
      st'.lookaheadMatches = st.lookaheadMatches ∧ st'.row = st.row) := by
  unfold restPhase at h
  dsimp only at h
  rw [if_neg (by simp [hrule]), if_neg (by simp [hrule]), if_neg (by omega)] at h
  rw [Option.bind_eq_some] at h
  obtain ⟨st1, hst1, h⟩ := h
  injection hst1 with hst1
  subst hst1
  by_cases h5 : st.state = 0
  · rw [if_pos h5] at h
    injection h with h
    subst h
    refine ⟨?_, ?_, ?_⟩
    · intro f hf
      cases hf
    · intro st' hst'
      injection hst' with hst'
      subst hst'
      exact ⟨rfl, rfl⟩
    · intro st' hst'
      cases hst'
  rw [if_neg h5] at h
  by_cases h6 : st.mode = RbbiRunMode.run
  · rw [if_pos h6] at h
    injection h with h
    subst h
    refine ⟨?_, ?_, ?_⟩
    · intro f hf
      cases hf
    · intro st' hst'
      cases hst'
    · intro st' hst'
      injection hst' with hst'
      subst hst'
      exact ⟨rfl, rfl⟩
  · rw [if_neg h6] at h
    injection h with h
    subst h
    refine ⟨?_, ?_, ?_⟩
    · intro f hf
      cases hf
    · intro st' hst'
      cases hst'
    · intro st' hst'
      injection hst' with hst'
      subst hst'
      by_cases h7 : st.mode = RbbiRunMode.start
      · rw [if_pos h7]
        exact ⟨rfl, rfl⟩
      · rw [if_neg h7]
        exact ⟨rfl, rfl⟩

theorem acceptPhase_lam (d : RbbiData) (st : NextSt) (out : NextOutcome)
    (hrule : st.row.lookahead = 0) (h : acceptPhase d st = some out) :
    (∀ f, out = NextOutcome.ret f → f.lookaheadMatches = st.lookaheadMatches) ∧
    (∀ st', out = NextOutcome.brk st' →
      st'.lookaheadMatches = st.lookaheadMatches ∧ st'.row = st.row) ∧
    (∀ st', out = NextOutcome.cont st' →
      st'.lookaheadMatches = st.lookaheadMatches ∧ st'.row = st.row) := by
  unfold acceptPhase at h
  by_cases h1 : st.row.accepting = 1
  · rw [if_pos h1] at h
    by_cases hm : st.mode ≠ RbbiRunMode.start
    · rw [if_pos hm] at h
      have := restPhase_lam d
        { st with result := st.cursor.position, ruleStatusIndex := st.row.tagIndex } out hrule h
      exact ⟨fun f hf => (this.1 f hf).elim, this.2.1, this.2.2⟩
    · rw [if_neg hm] at h
      have := restPhase_lam d { st with ruleStatusIndex := st.row.tagIndex } out hrule h
      exact ⟨fun f hf => (this.1 f hf).elim, this.2.1, this.2.2⟩
  rw [if_neg h1] at h
  by_cases h2 : 1 < st.row.accepting
  · rw [if_pos h2] at h
    by_cases h3 : d.forwardTable.lookaheadResultsSize ≤ st.row.accepting
    · rw [if_pos h3] at h
      cases h
    rw [if_neg h3] at h
    rcases hget : st.lookaheadMatches.get? st.row.accepting with _ | v
    · rw [hget] at h
      cases h
    rw [hget] at h
    dsimp only at h
    by_cases h4 : 0 ≤ v
    · rw [if_pos h4] at h
      injection h with h
      subst h
      refine ⟨?_, ?_, ?_⟩
      · intro f hf
        injection hf with hf
        subst hf
        rfl
      · intro st' hst'
        cases hst'
      · intro st' hst'
        cases hst'
    · rw [if_neg h4] at h
      have := restPhase_lam d _ out hrule h
      exact ⟨fun f hf => (this.1 f hf).elim, this.2.1, this.2.2⟩
  · rw [if_neg h2] at h
    have := restPhase_lam d _ out hrule h
    exact ⟨fun f hf => (this.1 f hf).elim, this.2.1, this.2.2⟩

theorem nextBody_lam (d : RbbiData) (lam : List Int) (st : NextSt) (out : NextOutcome)
    (hno : ∀ row ∈ d.forwardTable.rows, row.lookahead = 0)
    (hlam : st.lookaheadMatches = lam) (h : nextBody d st = some out) :
    (∀ f, out = NextOutcome.ret f → f.lookaheadMatches = lam) ∧
    (∀ st', out = NextOutcome.brk st' → st'.lookaheadMatches = lam) ∧
    (∀ st', out = NextOutcome.cont st' → st'.lookaheadMatches = lam) := by
  unfold nextBody at h
  by_cases hA : st.nextOk = false ∧ st.mode = RbbiRunMode.atEnd
  · rw [if_pos hA] at h
    injection h with h
    subst h
    refine ⟨?_, ?_, ?_⟩
    · intro f hf
      cases hf
    · intro st' hst'
      injection hst' with hst'
      subst hst'
      exact hlam
    · intro st' hst'
      cases hst'
  rw [if_neg hA] at h
  dsimp only at h
  set st1 := (if st.nextOk = false then
      { st with mode := RbbiRunMode.atEnd, category := 1 } else st) with hst1def
  have hlam1 : st1.lookaheadMatches = lam := by
    rw [hst1def]
    split_ifs
    · exact hlam
    · exact hlam
  rw [Option.bind_eq_some] at h
  obtain ⟨st2, hst2, h⟩ := h
  have hlam2 : st2.lookaheadMatches = lam := by
    by_cases hR : st1.mode = RbbiRunMode.run
    · rw [if_pos hR] at hst2
      rcases hfg : UcpTrie.fastGet d.trie st1.c with _ | v
      · rw [hfg] at hst2
        cases hst2
      · rw [hfg] at hst2
        injection hst2 with hst2
        subst hst2
        dsimp only
        split_ifs
        · exact hlam1
        · exact hlam1
    · rw [if_neg hR] at hst2
      injection hst2 with hst2
      subst hst2
      exact hlam1
  by_cases hC : d.categoryCount ≤ st2.category
  · rw [if_pos hC] at h
    cases h
  rw [if_neg hC] at h
  rw [Option.bind_eq_some] at h
  obtain ⟨state, hstate, h⟩ := h
  rw [Option.bind_eq_some] at h
  obtain ⟨row, hrow, h⟩ := h
  have hrowmem : row ∈ d.forwardTable.rows := List.get?_mem hrow
  have := acceptPhase_lam d { st2 with state := state, row := row } out
    (hno row hrowmem) h
  exact ⟨fun f hf => by rw [this.1 f hf]; exact hlam2,
    fun st' hst' => by rw [(this.2.1 st' hst').1]; exact hlam2,
    fun st' hst' => by rw [(this.2.2 st' hst').1]; exact hlam2⟩

theorem nextLoop_lam (d : RbbiData) (lam : List Int)
    (hno : ∀ row ∈ d.forwardTable.rows, row.lookahead = 0) :
    ∀ fuel (st : NextSt) (out : NextRes ⊕ NextSt), st.lookaheadMatches = lam →
      nextLoop d fuel st = some out →
      (∀ f, out = Sum.inl f → f.lookaheadMatches = lam) ∧
      (∀ st', out = Sum.inr st' → st'.lookaheadMatches = lam) := by
  intro fuel
  induction fuel with
  | zero =>
    intro st out _ h
    cases h
  | succ fuel ih =>
    intro st out hlam h
    simp only [nextLoop] at h
    rw [Option.bind_eq_some] at h
    obtain ⟨o, ho, h⟩ := h
    have hb := nextBody_lam d lam st o hno hlam ho
    cases o with
    | ret f =>
      injection h with h
      subst h
      refine ⟨?_, ?_⟩
      · intro f' hf'
        injection hf' with hf'
        subst hf'
        exact hb.1 f rfl
      · intro st' hst'
        cases hst'
    | brk st1 =>
      injection h with h
      subst h
      refine ⟨?_, ?_⟩
      · intro f' hf'
        cases hf'
      · intro st' hst'
        injection hst' with hst'
        subst hst'
        exact hb.2.1 st1 rfl
    | cont st1 =>
      exact ih st1 out (hb.2.2 st1 rfl) h

/-- Claim C2, amended: `Next` never clears `lookaheadMatches`; the array
is zero-filled once at construction, a slot is treated as *set* whenever
its value is `≥ 0`, and `Next` writes slots only when it passes a
look-ahead recording row.  In particular, for any table without recording
rows the array is returned exactly as it was passed in — no clearing ever
happens. -/
theorem c2_lookahead_not_cleared (d : RbbiData) (lam : List Int) (cur : StringCursor)
    (fuel : Nat) (res : NextRes)
    (hno : ∀ row ∈ d.forwardTable.rows, row.lookahead = 0)
    (h : nextGo d lam cur fuel = some res) : res.lookaheadMatches = lam := by
  unfold nextGo at h
  by_cases hend : (cur.Next).2.1 = false
  · rw [if_pos hend] at h
    injection h with h
    subst h
    rfl
  · rw [if_neg hend] at h
    rw [Option.bind_eq_some] at h
    obtain ⟨row1, hrow1, h⟩ := h
    rw [Option.bind_eq_some] at h
    obtain ⟨out, hout, h⟩ := h
    have hlam0 : (nextStart d lam cur row1).lookaheadMatches = lam := by
      unfold nextStart
      split_ifs
      · rfl
      · rfl
    have hloop := nextLoop_lam d lam hno fuel _ out hlam0 hout
    cases out with
    | inl f =>
      injection h with h
      exact h ▸ hloop.1 f rfl
    | inr st =>
      have hst : st.lookaheadMatches = lam := hloop.2 st rfl
      have h' : nextFinish cur.position st = some res := h
      unfold nextFinish at h'
      split at h'
      · dsimp only at h'
        split at h'
        · injection h' with h'
          subst h'
          exact hst
        · injection h' with h'
          subst h'
          exact hst
      · injection h' with h'
        subst h'
        exact hst

/-- Witness for `c2_lookahead_not_cleared` at `dataStop`. -/
theorem c2_lookahead_not_cleared_witness :
    (∀ row ∈ dataStop.forwardTable.rows, row.lookahead = 0) ∧
    (⟨⟨[97, 97], 1⟩, [7, -3], 0, 1, true⟩ : NextRes).lookaheadMatches = [7, -3] :=
  ⟨by decide,
   c2_lookahead_not_cleared dataStop [7, -3] ⟨[97, 97], 0⟩ 10
     ⟨⟨[97, 97], 1⟩, [7, -3], 0, 1, true⟩ (by decide) (by decide)⟩

/-! ## Claim C6 -/

/-- Claim C6: when the forward state machine's loop exits normally with
`result` still equal to the entry position (the rules failed to advance),
`Next` restores the cursor to the entry position, consumes exactly one
code point via `cursor.Next()`, and returns the position after that
single code point with `ruleStatusIndex` reset to 0.  (The `ok = false`
arm of this path fires exactly when that consume fails; under `hnext` the
entry position is not at end of text, so here it succeeds.) -/
theorem c6_forced_advance (d : RbbiData) (lam : List Int) (cur : StringCursor)
    (fuel : Nat) (row1 : RbbiStateTableRow) (st : NextSt)
    (hnext : (cur.Next).2.1 = true)
    (hrow : d.forwardTable.rows.get? 1 = some row1)
    (hloop : nextLoop d fuel (nextStart d lam cur row1) = some (Sum.inr st))
    (hres : st.result = cur.position)
    (htext : st.cursor.text = cur.text) :
    nextGo d lam cur fuel =
      some ⟨⟨cur.text, cur.position + (decodeRune (cur.text.drop cur.position)).2⟩,
        st.lookaheadMatches, 0,
        ((cur.position + (decodeRune (cur.text.drop cur.position)).2 : Nat) : Int), true⟩ := by
  have hlt : cur.position < cur.text.length := (StringCursor.Next_ok_iff cur).mp hnext
  have hchain : nextGo d lam cur fuel = nextFinish cur.position st := by
    unfold nextGo
    dsimp only
    rw [if_neg (by simp [hnext]), hrow]
    simp only [Option.some_bind]
    rw [hloop]
    simp only [Option.some_bind]
  rw [hchain]
  unfold nextFinish
  rw [if_pos hres]
  rw [StringCursor.SetPosition_some st.cursor (cur.position : Int) (by omega)
    (by rw [htext]; exact_mod_cast le_of_lt hlt)]
  simp only [Option.getD_some, htext]
  rw [StringCursor.Next_lt ⟨cur.text, (cur.position : Int).toNat⟩ (by simpa using hlt)]
  simp only [Int.toNat_natCast]
  rw [if_neg (by simp)]
  have hdrop : cur.text.drop cur.position ≠ [] := by
    intro hc
    have := List.drop_eq_nil_iff.mp hc
    omega
  have hsz := decodeRune_size _ hdrop
  have hdl : (cur.text.drop cur.position).length = cur.text.length - cur.position := by simp
  rw [StringCursor.SetPosition_some _ _ (by omega) (by dsimp only; omega)]
  simp only [Option.getD_some]
  simp
  omega

/-- Witness for `c6_forced_advance` at `dataStop`, text `"aa"`, entry 0:
the machine transitions straight to the stop state with no acceptance,
and `Next` force-advances to position 1 with `ruleStatusIndex` 0. -/
theorem c6_forced_advance_witness :
    ((⟨[97, 97], 0⟩ : StringCursor).Next.2.1 = true) ∧
    nextGo dataStop [0, 0] ⟨[97, 97], 0⟩ 10 =
      some ⟨⟨[97, 97], 0 + (decodeRune (([97, 97] : List Nat).drop 0)).2⟩, [0, 0], 0,
        ((0 + (decodeRune (([97, 97] : List Nat).drop 0)).2 : Nat) : Int), true⟩ :=
  ⟨by decide,
   c6_forced_advance dataStop [0, 0] ⟨[97, 97], 0⟩ 10 ⟨0, 0, 0, [0, 0, 0, 0]⟩
     ⟨⟨[97, 97], 1⟩, 97, true, 0, rowStop, RbbiRunMode.run, 3, 0, 0, [0, 0], 0⟩
     (by decide) (by decide) (by decide) (by decide) (by decide)⟩

/-! ## Claim C7 -/

/-- Claim C7: inside the scan loop, when the machine has just entered a
row with `accepting > 1` (within range) and the slot
`lookaheadMatches[accepting]` holds a set (non-negative) saved position,
`Next` immediately returns `(saved, true)` with `ruleStatusIndex` set to
the row's `tagIndex` and the cursor moved to the saved position — no
recording, no further scanning and no later acceptance happens in that
call.  When the slot is unset (negative) the completion is ignored: the
accept phase behaves exactly like the phase after a non-accepting row. -/
theorem c7_lookahead_completion (d : RbbiData) (st : NextSt) (v : Int)
    (hacc : 1 < st.row.accepting)
    (hsz : st.row.accepting < d.forwardTable.lookaheadResultsSize)
    (hget : st.lookaheadMatches.get? st.row.accepting = some v) :
    (0 ≤ v → acceptPhase d st =
      some (NextOutcome.ret ⟨(st.cursor.SetPosition v).getD st.cursor,
        st.lookaheadMatches, st.row.tagIndex, v, true⟩) ∧
      (v ≤ (st.cursor.text.length : Int) →
        (st.cursor.SetPosition v).getD st.cursor = ⟨st.cursor.text, v.toNat⟩)) ∧
    (v < 0 → acceptPhase d st = restPhase d st) := by
  unfold acceptPhase
  rw [if_neg (by omega), if_pos hacc, if_neg (by omega), hget]
  dsimp only
  constructor
  · intro h0
    rw [if_pos h0]
    refine ⟨rfl, ?_⟩
    intro hle
    rw [StringCursor.SetPosition_some st.cursor v h0 hle]
    rfl
  · intro hneg
    rw [if_neg (by omega)]

/-- Witness for `c7_lookahead_completion` at `dataC1` in the state after
reading one `a` from position 1 of `"aa"`, with slot 2 holding saved
position 1. -/
theorem c7_lookahead_completion_witness :
    ((0 : Int) ≤ 1 → acceptPhase dataC1
        ⟨⟨[97, 97], 2⟩, 97, true, 2, ⟨2, 0, 7, [0, 0, 0, 0]⟩, RbbiRunMode.run, 3, 1, 0,
          [0, 0, 1], 0⟩ =
      some (NextOutcome.ret ⟨((⟨[97, 97], 2⟩ : StringCursor).SetPosition 1).getD ⟨[97, 97], 2⟩,
        [0, 0, 1], 7, 1, true⟩) ∧
      ((1 : Int) ≤ (([97, 97] : List Nat).length : Int) →
        ((⟨[97, 97], 2⟩ : StringCursor).SetPosition 1).getD ⟨[97, 97], 2⟩ =
          ⟨[97, 97], (1 : Int).toNat⟩)) ∧
    ((1 : Int) < 0 → acceptPhase dataC1
        ⟨⟨[97, 97], 2⟩, 97, true, 2, ⟨2, 0, 7, [0, 0, 0, 0]⟩, RbbiRunMode.run, 3, 1, 0,
          [0, 0, 1], 0⟩ =
      restPhase dataC1
        ⟨⟨[97, 97], 2⟩, 97, true, 2, ⟨2, 0, 7, [0, 0, 0, 0]⟩, RbbiRunMode.run, 3, 1, 0,
          [0, 0, 1], 0⟩) :=
  c7_lookahead_completion dataC1
    ⟨⟨[97, 97], 2⟩, 97, true, 2, ⟨2, 0, 7, [0, 0, 0, 0]⟩, RbbiRunMode.run, 3, 1, 0,
      [0, 0, 1], 0⟩ 1 (by decide) (by decide) (by decide)

/-! ## Facts about `safePrevious` -/

theorem safePrevLoop_cursor (d : RbbiData) :
    ∀ fuel (st st' : SafePrevSt), safePrevLoop d fuel st = some st' →
      st'.cursor.text = st.cursor.text ∧ st'.cursor.position ≤ st.cursor.position := by
  intro fuel
  induction fuel with
  | zero =>
    intro st st' h
    cases h
  | succ fuel ih =>
    intro st st' h
    simp only [safePrevLoop] at h
    by_cases hok : st.ok = false
    · rw [if_pos hok] at h
      injection h with h
      subst h
      exact ⟨rfl, Nat.le_refl _⟩
    rw [if_neg hok] at h
    rw [Option.bind_eq_some] at h
    obtain ⟨cat, hcat, h⟩ := h
    by_cases hcc : d.categoryCount ≤ cat
    · rw [if_pos hcc] at h
      cases h
    rw [if_neg hcc] at h
    rw [Option.bind_eq_some] at h
    obtain ⟨state, hstate, h⟩ := h
    rw [Option.bind_eq_some] at h
    obtain ⟨row, hrow, h⟩ := h
    by_cases hz : state = 0
    · rw [if_pos hz] at h
      injection h with h
      subst h
      exact ⟨rfl, Nat.le_refl _⟩
    rw [if_neg hz] at h
    have hw := StringCursor.Previous_weak st.cursor
    have := ih _ st' h
    dsimp only at this
    exact ⟨by rw [this.1, hw.1], Nat.le_trans this.2 hw.2⟩

theorem safePreviousGo_false (d : RbbiData) (cur : StringCursor) (fromPos : Int)
    (fuel : Nat) (c' : StringCursor) (p : Int)
    (h0 : 0 ≤ fromPos) (hle : fromPos ≤ (cur.text.length : Int))
    (h : safePreviousGo d cur fromPos fuel = some (c', p, false)) :
    fromPos = 0 ∧ c' = ⟨cur.text, 0⟩ ∧ p = -1 := by
  unfold safePreviousGo at h
  rw [StringCursor.SetPosition_some cur fromPos h0 hle] at h
  simp only [Option.getD_some] at h
  by_cases hz : fromPos.toNat = 0
  · rw [StringCursor.Previous_at_start ⟨cur.text, fromPos.toNat⟩ hz] at h
    simp only [if_pos rfl] at h
    injection h with h
    refine ⟨by omega, ?_, ?_⟩
    · have := congrArg (fun t => t.1) h
      dsimp at this
      rw [← this, hz]
    · exact (congrArg (fun t => t.2.1) h).symm
  · rw [StringCursor.Previous_lt ⟨cur.text, fromPos.toNat⟩ (by dsimp only; omega)] at h
    simp only [] at h
    rw [if_neg (by simp)] at h
    rw [Option.bind_eq_some] at h
    obtain ⟨row1, hrow1, h⟩ := h
    rw [Option.bind_eq_some] at h
    obtain ⟨st', hst', h⟩ := h
    injection h with h
    have := congrArg (fun t => t.2.2) h
    simp at this

theorem safePreviousGo_true (d : RbbiData) (cur : StringCursor) (fromPos : Int)
    (fuel : Nat) (c' : StringCursor) (p : Int)
    (h0 : 0 ≤ fromPos) (hle : fromPos ≤ (cur.text.length : Int))
    (h : safePreviousGo d cur fromPos fuel = some (c', p, true)) :
    p = (c'.position : Int) ∧ c'.text = cur.text ∧ (c'.position : Int) < fromPos := by
  unfold safePreviousGo at h
  rw [StringCursor.SetPosition_some cur fromPos h0 hle] at h
  simp only [Option.getD_some] at h
  by_cases hz : fromPos.toNat = 0
  · rw [StringCursor.Previous_at_start ⟨cur.text, fromPos.toNat⟩ hz] at h
    simp only [if_pos rfl] at h
    injection h with h
    have := congrArg (fun t => t.2.2) h
    simp at this
  · rw [StringCursor.Previous_lt ⟨cur.text, fromPos.toNat⟩ (by dsimp only; omega)] at h
    simp only [] at h
    rw [if_neg (by simp)] at h
    rw [Option.bind_eq_some] at h
    obtain ⟨row1, hrow1, h⟩ := h
    rw [Option.bind_eq_some] at h
    obtain ⟨st', hst', h⟩ := h
    injection h with h
    have hc : c' = st'.cursor := (congrArg (fun t => t.1) h).symm
    have hp : p = (st'.cursor.position : Int) := (congrArg (fun t => t.2.1) h).symm
    have hloop := safePrevLoop_cursor d fuel _ st' hst'
    dsimp only at hloop
    have hto : fromPos.toNat ≤ cur.text.length := Int.toNat_le.mpr hle
    have htake : (cur.text.take fromPos.toNat) ≠ [] := by
      intro hcontra
      have hlth := congrArg List.length hcontra
      rw [List.length_take] at hlth
      simp only [List.length_nil] at hlth
      omega
    have hsz := decodeLastRune_size _ htake
    have hlen : (cur.text.take fromPos.toNat).length = fromPos.toNat := by
      simp [Nat.min_eq_left hto]
    subst hc
    refine ⟨hp, hloop.1, ?_⟩
    rw [show fromPos = (fromPos.toNat : Int) from (Int.toNat_of_nonneg h0).symm]
    have hfin : st'.cursor.position < fromPos.toNat :=
      lt_of_le_of_lt hloop.2 (Nat.sub_lt (Nat.pos_of_ne_zero hz) hsz.1)
    exact_mod_cast hfin

theorem safePrevLoop_nostop (d : RbbiData)
    (hnostop : ∀ row ∈ d.reverseTable.rows, ∀ s ∈ row.nextStates, s ≠ 0) :
    ∀ fuel (st st' : SafePrevSt), st.row ∈ d.reverseTable.rows →
      safePrevLoop d fuel st = some st' →
      (st.ok = false → st' = st) ∧
      (st.ok = true → st'.cursor.position = 0 ∧ st'.cursor.text = st.cursor.text) := by
  intro fuel
  induction fuel with
  | zero =>
    intro st st' _ h
    cases h
  | succ fuel ih =>
    intro st st' hrowmem h
    simp only [safePrevLoop] at h
    by_cases hok : st.ok = false
    · rw [if_pos hok] at h
      injection h with h
      subst h
      exact ⟨fun _ => rfl, fun hc => by rw [hok] at hc; cases hc⟩
    rw [if_neg hok] at h
    rw [Option.bind_eq_some] at h
    obtain ⟨cat, hcat, h⟩ := h
    by_cases hcc : d.categoryCount ≤ cat
    · rw [if_pos hcc] at h
      cases h
    rw [if_neg hcc] at h
    rw [Option.bind_eq_some] at h
    obtain ⟨state, hstate, h⟩ := h
    rw [Option.bind_eq_some] at h
    obtain ⟨row, hrow, h⟩ := h
    have hz : state ≠ 0 :=
      hnostop st.row hrowmem state (List.get?_mem hstate)
    rw [if_neg hz] at h
    have hrowmem' : row ∈ d.reverseTable.rows := List.get?_mem hrow
    have := ih _ st' hrowmem' h
    refine ⟨fun hc => absurd hc hok, fun _ => ?_⟩
    by_cases hpz : st.cursor.position = 0
    · rw [StringCursor.Previous_at_start st.cursor hpz] at this
      dsimp only at this
      have := this.1 rfl
      subst this
      exact ⟨hpz, rfl⟩
    · rw [StringCursor.Previous_lt st.cursor (by omega)] at this
      dsimp only at this
      have h2 := this.2 rfl
      exact h2

/-! ## Claim C10 -/

/-- Claim C10: `safePrevious(fromPosition)` fails only when the very
first `cursor.Previous()` call fails, i.e. exactly when `fromPosition` is
the start of the text (in which case the cursor stays there); on success
the returned position is the cursor's final position; and when the
reverse table never reaches the stop state the scan runs off the start of
the text and the start-of-text position 0 is returned with `ok = true`. -/
theorem c10_safePrevious (d : RbbiData) (cur : StringCursor) (fromPos : Int) (fuel : Nat)
    (h0 : 0 ≤ fromPos) (hle : fromPos ≤ (cur.text.length : Int)) :
    (∀ c' p, safePreviousGo d cur fromPos fuel = some (c', p, false) → fromPos = 0) ∧
    (fromPos = 0 → safePreviousGo d cur fromPos fuel = some (⟨cur.text, 0⟩, -1, false)) ∧
    (∀ c' p, safePreviousGo d cur fromPos fuel = some (c', p, true) →
      p = (c'.position : Int) ∧ c'.text = cur.text) ∧
    ((∀ row ∈ d.reverseTable.rows, ∀ s ∈ row.nextStates, s ≠ 0) → 0 < fromPos →
      ∀ res, safePreviousGo d cur fromPos fuel = some res →
        res = (⟨cur.text, 0⟩, (0 : Int), true)) := by
  refine ⟨?_, ?_, ?_, ?_⟩
  · intro c' p h
    exact (safePreviousGo_false d cur fromPos fuel c' p h0 hle h).1
  · intro hz
    subst hz
    unfold safePreviousGo
    rw [StringCursor.SetPosition_some cur 0 (by omega) hle]
    simp only [Option.getD_some]
    rw [StringCursor.Previous_at_start ⟨cur.text, (0 : Int).toNat⟩ rfl]
    simp only [if_pos rfl]
    rfl
  · intro c' p h
    have := safePreviousGo_true d cur fromPos fuel c' p h0 hle h
    exact ⟨this.1, this.2.1⟩
  · intro hnostop hpos res h
    unfold safePreviousGo at h
    rw [StringCursor.SetPosition_some cur fromPos h0 hle] at h
    simp only [Option.getD_some] at h
    rw [StringCursor.Previous_lt ⟨cur.text, fromPos.toNat⟩ (by dsimp only; omega)] at h
    simp only [] at h
    rw [if_neg (by simp)] at h
    rw [Option.bind_eq_some] at h
    obtain ⟨row1, hrow1, h⟩ := h
    rw [Option.bind_eq_some] at h
    obtain ⟨st', hst', h⟩ := h
    have hmem : row1 ∈ d.reverseTable.rows := List.get?_mem hrow1
    have hns := safePrevLoop_nostop d hnostop fuel _ st' hmem hst'
    dsimp only at hns
    have h2 := hns.2 rfl
    injection h with h
    subst h
    rw [show st'.cursor = (⟨cur.text, 0⟩ : StringCursor) from by
      rw [← h2.2, ← h2.1]]
    simp

/-- Witness for `c10_safePrevious` at `dataNoStopRev`, text `"aa"`,
`fromPosition = 2`: the reverse table loops until the start of text, and
`safePrevious` returns `(0, true)`. -/
theorem c10_safePrevious_witness :
    safePreviousGo dataNoStopRev ⟨[97, 97], 2⟩ 2 6 = some (⟨[97, 97], 0⟩, 0, true) ∧
    ((⟨[97, 97], 0⟩ : StringCursor), (0 : Int), true) =
      ((⟨(⟨[97, 97], 2⟩ : StringCursor).text, 0⟩ : StringCursor), (0 : Int), true) :=
  ⟨by decide,
   (c10_safePrevious dataNoStopRev ⟨[97, 97], 2⟩ 2 6 (by decide) (by decide)).2.2.2
     (by decide) (by decide) (⟨[97, 97], 0⟩, 0, true) (by decide)⟩

/-! ## A weaker invariant for `Next`, with no assumption on the slots

Used for the `Previous` claims, where the look-ahead slots at the start
of the inner `Next` calls are whatever earlier calls left behind. -/

def WInv (text : List Nat) (st : NextSt) : Prop :=
  st.cursor.text = text ∧ st.cursor.position ≤ text.length

/-- What is known about any value returned by `Next` with no assumption
on the incoming look-ahead slots: the cursor stays in the same text, and
whenever the returned position is in range the cursor sits exactly
there. -/
def NextResW (text : List Nat) (f : NextRes) : Prop :=
  f.cursor.text = text ∧ f.cursor.position ≤ text.length ∧
  (f.ok = true → 0 ≤ f.pos ∧ (f.pos ≤ (text.length : Int) → (f.cursor.position : Int) = f.pos))

theorem restPhase_weak (d : RbbiData) (text : List Nat) (st : NextSt)
    (hinv : WInv text st) (out : NextOutcome) (h : restPhase d st = some out) :
    (∀ f, out = NextOutcome.ret f → False) ∧
    (∀ st', out = NextOutcome.brk st' → WInv text st') ∧
    (∀ st', out = NextOutcome.cont st' → WInv text st') := by
  obtain ⟨htext, hposle⟩ := hinv
  unfold restPhase at h
  dsimp only at h
  by_cases h1 : st.row.lookahead ≠ 0 ∧ st.row.lookahead ≤ 1
  · rw [if_pos h1] at h; cases h
  rw [if_neg h1] at h
  by_cases h2 : st.row.lookahead ≠ 0 ∧ d.forwardTable.lookaheadResultsSize ≤ st.row.lookahead
  · rw [if_pos h2] at h; cases h
  rw [if_neg h2] at h
  rw [Option.bind_eq_some] at h
  obtain ⟨st1, hst1, h⟩ := h
  have hinv1 : WInv text st1 := by
    by_cases h3 : 1 < st.row.lookahead
    · rw [if_pos h3] at hst1
      by_cases h4 : st.lookaheadMatches.length ≤ st.row.lookahead
      · rw [if_pos h4] at hst1; cases hst1
      · rw [if_neg h4] at hst1
        injection hst1 with hst1
        subst hst1
        exact ⟨htext, hposle⟩
    · rw [if_neg h3] at hst1
      injection hst1 with hst1
      subst hst1
      exact ⟨htext, hposle⟩
  obtain ⟨htext1, hposle1⟩ := hinv1
  by_cases h5 : st1.state = 0
  · rw [if_pos h5] at h
    injection h with h
    subst h
    refine ⟨?_, ?_, ?_⟩
    · intro f hf
      cases hf
    · intro st' hst'
      injection hst' with hst'
      subst hst'
      exact ⟨htext1, hposle1⟩
    · intro st' hst'
      cases hst'
  rw [if_neg h5] at h
  by_cases h6 : st1.mode = RbbiRunMode.run
  · rw [if_pos h6] at h
    injection h with h
    subst h
    refine ⟨?_, ?_, ?_⟩
    · intro f hf
      cases hf
    · intro st' hst'
      cases hst'
    · intro st' hst'
      injection hst' with hst'
      subst hst'
      by_cases hc : st1.cursor.position < st1.cursor.text.length
      · have hb := StringCursor.Next_pos_bounds st1.cursor hc
        rw [htext1] at hb
        exact ⟨by rw [hb.2.2], by dsimp only; omega⟩
      · rw [StringCursor.Next_at_end st1.cursor (by omega)]
        exact ⟨htext1, hposle1⟩
  · rw [if_neg h6] at h
    injection h with h
    subst h
    refine ⟨?_, ?_, ?_⟩
    · intro f hf
      cases hf
    · intro st' hst'
      cases hst'
    intro st' hst'
    injection hst' with hst'
    subst hst'
    by_cases h7 : st1.mode = RbbiRunMode.start
    · rw [if_pos h7]
      exact ⟨htext1, hposle1⟩
    · rw [if_neg h7]
      exact ⟨htext1, hposle1⟩

theorem acceptPhase_weak (d : RbbiData) (text : List Nat) (st : NextSt)
    (hinv : WInv text st) (out : NextOutcome) (h : acceptPhase d st = some out) :
    (∀ f, out = NextOutcome.ret f → NextResW text f) ∧
    (∀ st', out = NextOutcome.brk st' → WInv text st') ∧
    (∀ st', out = NextOutcome.cont st' → WInv text st') := by
  have hinvc := hinv
  obtain ⟨htext, hposle⟩ := hinvc
  unfold acceptPhase at h
  by_cases h1 : st.row.accepting = 1
  · rw [if_pos h1] at h
    by_cases hm : st.mode ≠ RbbiRunMode.start
    · rw [if_pos hm] at h
      have := restPhase_weak d text
        { st with result := st.cursor.position, ruleStatusIndex := st.row.tagIndex }
        ⟨htext, hposle⟩ out h
      exact ⟨fun f hf => (this.1 f hf).elim, this.2.1, this.2.2⟩
    · rw [if_neg hm] at h
      have := restPhase_weak d text { st with ruleStatusIndex := st.row.tagIndex }
        ⟨htext, hposle⟩ out h
      exact ⟨fun f hf => (this.1 f hf).elim, this.2.1, this.2.2⟩
  rw [if_neg h1] at h
  by_cases h2 : 1 < st.row.accepting
  · rw [if_pos h2] at h
    by_cases h3 : d.forwardTable.lookaheadResultsSize ≤ st.row.accepting
    · rw [if_pos h3] at h
      cases h
    rw [if_neg h3] at h
    rcases hget : st.lookaheadMatches.get? st.row.accepting with _ | v
    · rw [hget] at h
      cases h
    rw [hget] at h
    dsimp only at h
    by_cases h4 : 0 ≤ v
    · rw [if_pos h4] at h
      injection h with h
      subst h
      refine ⟨?_, ?_, ?_⟩
      · intro f hf
        injection hf with hf
        subst hf
        by_cases hv : v ≤ (st.cursor.text.length : Int)
        · rw [StringCursor.SetPosition_some st.cursor v h4 hv]
          simp only [Option.getD_some]
          refine ⟨?_, ?_, ?_⟩
          · exact htext
          · exact Int.toNat_le.mpr (htext ▸ hv)
          · intro _
            exact ⟨h4, fun _ => Int.toNat_of_nonneg h4⟩
        · rw [(StringCursor.SetPosition_none_iff st.cursor v).mpr (Or.inr (by omega))]
          simp only [Option.getD_none]
          refine ⟨htext, hposle, ?_⟩
          intro _
          refine ⟨h4, fun hc => ?_⟩
          rw [htext] at hv
          exact absurd hc hv
      · intro st' hst'
        cases hst'
      · intro st' hst'
        cases hst'
    · rw [if_neg h4] at h
      have := restPhase_weak d text st hinv out h
      exact ⟨fun f hf => (this.1 f hf).elim, this.2.1, this.2.2⟩
  · rw [if_neg h2] at h
    have := restPhase_weak d text st hinv out h
    exact ⟨fun f hf => (this.1 f hf).elim, this.2.1, this.2.2⟩

theorem nextBody_weak (d : RbbiData) (text : List Nat) (st : NextSt)
    (hinv : WInv text st) (out : NextOutcome) (h : nextBody d st = some out) :
    (∀ f, out = NextOutcome.ret f → NextResW text f) ∧
    (∀ st', out = NextOutcome.brk st' → WInv text st') ∧
    (∀ st', out = NextOutcome.cont st' → WInv text st') := by
  obtain ⟨htext, hposle⟩ := hinv
  unfold nextBody at h
  by_cases hA : st.nextOk = false ∧ st.mode = RbbiRunMode.atEnd
  · rw [if_pos hA] at h
    injection h with h
    subst h
    refine ⟨?_, ?_, ?_⟩
    · intro f hf
      cases hf
    · intro st' hst'
      injection hst' with hst'
      subst hst'
      exact ⟨htext, hposle⟩
    · intro st' hst'
      cases hst'
  rw [if_neg hA] at h
  dsimp only at h
  set st1 := (if st.nextOk = false then
      { st with mode := RbbiRunMode.atEnd, category := 1 } else st) with hst1def
  have hinv1 : WInv text st1 := by
    rw [hst1def]
    split_ifs
    · exact ⟨htext, hposle⟩
    · exact ⟨htext, hposle⟩
  obtain ⟨htext1, hposle1⟩ := hinv1
  rw [Option.bind_eq_some] at h
  obtain ⟨st2, hst2, h⟩ := h
  have hinv2 : WInv text st2 := by
    by_cases hR : st1.mode = RbbiRunMode.run
    · rw [if_pos hR] at hst2
      rcases hfg : UcpTrie.fastGet d.trie st1.c with _ | v
      · rw [hfg] at hst2
        cases hst2
      · rw [hfg] at hst2
        injection hst2 with hst2
        subst hst2
        dsimp only
        split_ifs
        · exact ⟨htext1, hposle1⟩
        · exact ⟨htext1, hposle1⟩
    · rw [if_neg hR] at hst2
      injection hst2 with hst2
      subst hst2
      exact ⟨htext1, hposle1⟩
  obtain ⟨htext2, hposle2⟩ := hinv2
  by_cases hC : d.categoryCount ≤ st2.category
  · rw [if_pos hC] at h
    cases h
  rw [if_neg hC] at h
  rw [Option.bind_eq_some] at h
  obtain ⟨state, hstate, h⟩ := h
  rw [Option.bind_eq_some] at h
  obtain ⟨row, hrow, h⟩ := h
  exact acceptPhase_weak d text { st2 with state := state, row := row }
    ⟨htext2, hposle2⟩ out h

theorem nextLoop_weak (d : RbbiData) (text : List Nat) :
    ∀ fuel (st : NextSt) (out : NextRes ⊕ NextSt), WInv text st →
      nextLoop d fuel st = some out →
      (∀ f, out = Sum.inl f → NextResW text f) ∧
      (∀ st', out = Sum.inr st' → WInv text st') := by
  intro fuel
  induction fuel with
  | zero =>
    intro st out _ h
    cases h
  | succ fuel ih =>
    intro st out hinv h
    simp only [nextLoop] at h
    rw [Option.bind_eq_some] at h
    obtain ⟨o, ho, h⟩ := h
    have hb := nextBody_weak d text st hinv o ho
    cases o with
    | ret f =>
      injection h with h
      subst h
      refine ⟨?_, ?_⟩
      · intro f' hf'
        injection hf' with hf'
        subst hf'
        exact hb.1 f rfl
      · intro st' hst'
        cases hst'
    | brk st1 =>
      injection h with h
      subst h
      refine ⟨?_, ?_⟩
      · intro f' hf'
        cases hf'
      · intro st' hst'
        injection hst' with hst'
        subst hst'
        exact hb.2.1 st1 rfl
    | cont st1 =>
      exact ih st1 out (hb.2.2 st1 rfl) h

theorem nextFinish_weak (text : List Nat) (entry : Nat) (st : NextSt) (res : NextRes)
    (hinv : WInv text st) (hentry : entry ≤ text.length)
    (h : nextFinish entry st = some res) : NextResW text res := by
  obtain ⟨htext, hposle⟩ := hinv
  subst htext
  unfold nextFinish at h
  split at h
  · -- forced advance
    rw [StringCursor.SetPosition_some st.cursor (entry : Int) (by omega)
      (by exact_mod_cast hentry)] at h
    simp only [Option.getD_some] at h
    by_cases hlt : entry < st.cursor.text.length
    · rw [StringCursor.Next_lt ⟨st.cursor.text, (entry : Int).toNat⟩
        (by simpa using hlt)] at h
      simp only [Int.toNat_natCast] at h
      rw [if_neg (by simp)] at h
      have hdrop : st.cursor.text.drop entry ≠ [] := by
        intro hc
        have := List.drop_eq_nil_iff.mp hc
        omega
      have hsz := decodeRune_size _ hdrop
      have hdl : (st.cursor.text.drop entry).length = st.cursor.text.length - entry := by
        simp
      rw [StringCursor.SetPosition_some _ _ (by omega) (by dsimp only; omega)] at h
      simp only [Option.getD_some] at h
      injection h with h
      subst h
      refine ⟨rfl, by dsimp only; omega, ?_⟩
      intro _
      refine ⟨by dsimp only; omega, fun _ => by dsimp only; omega⟩
    · rw [StringCursor.Next_at_end ⟨st.cursor.text, (entry : Int).toNat⟩
        (by simp; omega)] at h
      simp only [if_pos rfl] at h
      injection h with h
      subst h
      refine ⟨rfl, by dsimp only; simpa using hentry, ?_⟩
      intro hc
      cases hc
  · -- normal exit
    by_cases hr : st.result ≤ st.cursor.text.length
    · rw [StringCursor.SetPosition_some st.cursor (st.result : Int) (by omega)
        (by exact_mod_cast hr)] at h
      simp only [Option.getD_some] at h
      injection h with h
      subst h
      refine ⟨rfl, by dsimp only; omega, ?_⟩
      intro _
      refine ⟨by dsimp only; omega, fun _ => by dsimp only; omega⟩
    · rw [(StringCursor.SetPosition_none_iff st.cursor (st.result : Int)).mpr
        (Or.inr (by exact_mod_cast (by omega : st.cursor.text.length < st.result)))] at h
      simp only [Option.getD_none] at h
      injection h with h
      subst h
      refine ⟨rfl, hposle, ?_⟩
      intro _
      refine ⟨by dsimp only; omega, fun hc => ?_⟩
      dsimp only at hc
      omega

theorem next_weak (d : RbbiData) (lam : List Int) (cur : StringCursor) (fuel : Nat)
    (res : NextRes) (hcur : cur.position ≤ cur.text.length)
    (h : nextGo d lam cur fuel = some res) : NextResW cur.text res := by
  unfold nextGo at h
  by_cases hend : (cur.Next).2.1 = false
  · rw [if_pos hend] at h
    injection h with h
    subst h
    have : (cur.Next).2.2 = cur := by
      by_cases hc : cur.position < cur.text.length
      · rw [(StringCursor.Next_ok_iff cur).mpr hc] at hend
        cases hend
      · rw [StringCursor.Next_at_end cur (by omega)]
    rw [this]
    refine ⟨rfl, hcur, ?_⟩
    intro hc
    cases hc
  · rw [if_neg hend] at h
    rw [Option.bind_eq_some] at h
    obtain ⟨row1, hrow1, h⟩ := h
    rw [Option.bind_eq_some] at h
    obtain ⟨out, hout, h⟩ := h
    have hlt : cur.position < cur.text.length := by
      by_contra hc
      rw [StringCursor.Next_at_end cur (by omega)] at hend
      exact hend rfl
    have hinv0 : WInv cur.text (nextStart d lam cur row1) := by
      have hb := StringCursor.Next_pos_bounds cur hlt
      unfold nextStart
      split_ifs
      · exact ⟨hb.2.2, hb.2.1⟩
      · exact ⟨hb.2.2, hb.2.1⟩
    have hloop := nextLoop_weak d cur.text fuel _ out hinv0 hout
    cases out with
    | inl f =>
      injection h with h
      exact h ▸ hloop.1 f rfl
    | inr st =>
      exact nextFinish_weak cur.text cur.position st res (hloop.2 st rfl) (by omega) h

/-! ## Facts about `Previous` -/

/-- A value that the `lastBreakpoint` variable of `Previous` may hold
besides the `-1` sentinel: it is non-negative, and if it is in range for
the text then it lies strictly before the entry position. -/
def BpOK (text : List Nat) (startPos : Nat) (bp : Int) : Prop :=
  0 ≤ bp ∧ (bp ≤ (text.length : Int) → bp < (startPos : Int))

theorem prevInner_ok (d : RbbiData) (text : List Nat) (startPos : Nat) :
    ∀ fuel (lam : List Int) (cur : StringCursor) (bp : Int) out,
      cur.text = text → cur.position ≤ text.length →
      (bp = -1 ∨ BpOK text startPos bp) →
      prevInner d fuel lam cur startPos bp = some out →
      out.2.1.text = text ∧ out.2.1.position ≤ text.length ∧
      (out.2.2 = -1 ∨ BpOK text startPos out.2.2) := by
  intro fuel
  induction fuel with
  | zero =>
    intro lam cur bp out _ _ _ h
    cases h
  | succ fuel ih =>
    intro lam cur bp out htext hcur hbp h
    subst htext
    simp only [prevInner] at h
    rw [Option.bind_eq_some] at h
    obtain ⟨res, hres, h⟩ := h
    have hw := next_weak d lam cur _ res hcur hres
    by_cases hok : res.ok = false
    · rw [if_pos hok] at h
      cases h
    rw [if_neg hok] at h
    by_cases hbrk : startPos ≤ res.cursor.position
    · rw [if_pos hbrk] at h
      injection h with h
      subst h
      exact ⟨hw.1, hw.2.1, hbp⟩
    · rw [if_neg hbrk] at h
      have hokt : res.ok = true := by
        cases hres2 : res.ok
        · exact absurd hres2 hok
        · rfl
      have hp := hw.2.2 hokt
      have := ih res.lookaheadMatches res.cursor res.pos out hw.1 hw.2.1 (Or.inr ?hyp) h
      case hyp =>
        refine ⟨hp.1, fun hle => ?_⟩
        have := hp.2 hle
        omega
      exact this

theorem prevOuter_ok (d : RbbiData) (text : List Nat) (startPos : Nat) :
    ∀ fuel (lam : List Int) (cur : StringCursor) (bt : Nat) (bp : Int) res,
      cur.text = text → cur.position ≤ text.length →
      bt ≤ text.length → (bt = startPos ∨ bt < startPos) →
      (bp = -1 ∨ BpOK text startPos bp) →
      prevOuter d fuel lam cur startPos bt bp = some res →
      (res.ok = false → startPos = 0 ∧ res.pos = -1) ∧
      (res.ok = true → res.pos < (startPos : Int) ∧
        (res.cursor.position : Int) = res.pos ∧ res.cursor.text = text) := by
  intro fuel
  induction fuel with
  | zero =>
    intro lam cur bt bp res _ _ _ _ _ h
    cases h
  | succ fuel ih =>
    intro lam cur bt bp res htext hcur hbt hbtlt hbp h
    simp only [prevOuter] at h
    by_cases hbpv : bp ≠ -1
    · -- exit with the recorded breakpoint
      rw [if_pos hbpv] at h
      have hbpok : BpOK text startPos bp := by
        rcases hbp with hbp | hbp
        · exact absurd hbp hbpv
        · exact hbp
      rcases hset : cur.SetPosition bp with _ | cursor
      · rw [hset] at h
        cases h
      rw [hset] at h
      injection h with h
      subst h
      have hbple : bp ≤ (cur.text.length : Int) := by
        by_contra hc
        rw [(StringCursor.SetPosition_none_iff cur bp).mpr (Or.inr (by omega))] at hset
        cases hset
      rw [StringCursor.SetPosition_some cur bp hbpok.1 hbple] at hset
      injection hset with hset
      subst hset
      refine ⟨?_, ?_⟩
      · intro hc
        cases hc
      · intro _
        rw [htext] at hbple
        refine ⟨hbpok.2 hbple, ?_, htext⟩
        dsimp only
        exact Int.toNat_of_nonneg hbpok.1
    · rw [if_neg hbpv] at h
      rw [Option.bind_eq_some] at h
      obtain ⟨sp, hspr, h⟩ := h
      rcases sp with ⟨spc, spp, spok⟩
      by_cases hspok : spok = false
      · -- safePrevious ran off the start of the text
        subst hspok
        rw [if_pos rfl] at h
        have hfail := safePreviousGo_false d cur (bt : Int) _ spc spp (by omega)
          (by rw [htext]; exact_mod_cast hbt) hspr
        by_cases hbts : bt = startPos
        · rw [if_pos hbts] at h
          injection h with h
          subst h
          refine ⟨?_, ?_⟩
          · intro _
            exact ⟨by omega, rfl⟩
          · intro hc
            cases hc
        · rw [if_neg hbts] at h
          rcases hset : spc.SetPosition (bt : Int) with _ | cursor
          · rw [hset] at h
            cases h
          rw [hset] at h
          injection h with h
          subst h
          rw [hfail.2.1] at hset
          rw [StringCursor.SetPosition_some ⟨cur.text, 0⟩ (bt : Int) (by omega)
            (by dsimp only; rw [htext]; exact_mod_cast hbt)] at hset
          injection hset with hset
          subst hset
          refine ⟨?_, ?_⟩
          · intro hc
            cases hc
          · intro _
            have hblt : bt < startPos := by
              rcases hbtlt with hx | hx
              · exact absurd hx hbts
              · exact hx
            refine ⟨by dsimp only; exact_mod_cast hblt, by simp, by dsimp only; exact htext⟩
      · -- safePrevious found a restart point: replay and recurse
        have hspokt : spok = true := by
          cases spok
          · exact absurd rfl hspok
          · rfl
        subst hspokt
        rw [if_neg (by simp)] at h
        rw [Option.bind_eq_some] at h
        obtain ⟨inner, hinner, h⟩ := h
        have hsp2 := safePreviousGo_true d cur (bt : Int) _ spc spp (by omega)
          (by rw [htext]; exact_mod_cast hbt) hspr
        have hspclt : spc.position < bt := by exact_mod_cast hsp2.2.2
        have htext2 : spc.text = text := by rw [hsp2.2.1, htext]
        have hinn := prevInner_ok d text startPos _ lam spc bp inner htext2
          (by omega) hbp hinner
        have hbt' : spp.toNat = spc.position := by
          rw [hsp2.1]
          simp
        refine ih inner.1 inner.2.1 spp.toNat inner.2.2 res hinn.1 hinn.2.1 ?_ ?_ hinn.2.2 h
        · omega
        · right
          rw [hbt']
          omega

/-- `Previous` at the start of the text: the very first `safePrevious`
fails and `Previous` reports `ok = false` without moving the cursor. -/
theorem previousGo_at_start (d : RbbiData) (lam : List Int) (cur : StringCursor)
    (fuel : Nat) (res : PrevRes) (hz : cur.position = 0)
    (h : previousGo d lam cur fuel = some res) : res.ok = false := by
  rcases fuel with _ | fuel
  · cases h
  unfold previousGo at h
  simp only [prevOuter] at h
  rw [if_neg (by simp)] at h
  rw [Option.bind_eq_some] at h
  obtain ⟨sp, hspr, h⟩ := h
  rcases sp with ⟨spc, spp, spok⟩
  have : spok = false := by
    by_contra hc
    have hspokt : spok = true := by
      cases spok
      · exact absurd rfl hc
      · rfl
    subst hspokt
    have := safePreviousGo_true d cur (cur.position : Int) _ spc spp (by omega)
      (by rw [hz]; exact_mod_cast (Nat.zero_le _)) hspr
    omega
  subst this
  rw [if_pos rfl] at h
  rw [if_pos trivial] at h
  injection h with h
  subst h
  rfl

/-! ## Claim C3 -/

/-- Claim C3 as stated is false: on `dataAA` (rules that consume `aa` as
one unit) over the text `"aaaa"`, the break positions produced by
iterating `Next` from 0 are exactly 2 and 4, yet `Previous` from entry
position 4 returns position 3 — not the largest break position strictly
less than 4 (which is 2).  The reverse table's restart point (position 1)
is not safe for these rules, and the forward replay from it manufactures
a spurious break at 3. -/
theorem c3_counterexample :
    previousGo dataAA [0, 0] ⟨[97, 97, 97, 97], 4⟩ 10 =
      some ⟨[0, 0], ⟨[97, 97, 97, 97], 3⟩, 3, true⟩ ∧
    nextGo dataAA [0, 0] ⟨[97, 97, 97, 97], 0⟩ 10 =
      some ⟨⟨[97, 97, 97, 97], 2⟩, [0, 0], 5, 2, true⟩ ∧
    nextGo dataAA [0, 0] ⟨[97, 97, 97, 97], 2⟩ 10 =
      some ⟨⟨[97, 97, 97, 97], 4⟩, [0, 0], 5, 4, true⟩ ∧
    ((3 : Int) ≠ 2 ∧ (3 : Int) ≠ 4) := by
  refine ⟨?_, ?_, ?_, ?_⟩ <;> decide

/-- Claim C3, amended: `Previous` returns `ok = false` exactly when the
entry position is the beginning of the text, and on success it returns a
position strictly less than the entry position with the cursor left
exactly there — but that position need not be the largest break position
below the entry (see `c3_counterexample`). -/
theorem c3_previous_amended (d : RbbiData) (lam : List Int) (cur : StringCursor)
    (fuel : Nat) (res : PrevRes) (hcur : cur.position ≤ cur.text.length)
    (h : previousGo d lam cur fuel = some res) :
    (res.ok = false ↔ cur.position = 0) ∧
    (res.ok = true → res.pos < (cur.position : Int) ∧
      (res.cursor.position : Int) = res.pos ∧ res.cursor.text = cur.text) := by
  have houter := prevOuter_ok d cur.text cur.position fuel lam cur cur.position (-1) res
    rfl hcur hcur (Or.inl rfl) (Or.inl rfl) h
  refine ⟨⟨?_, ?_⟩, ?_⟩
  · intro hf
    exact (houter.1 hf).1
  · intro hz
    exact previousGo_at_start d lam cur fuel res hz h
  · exact houter.2

/-- Witness for `c3_previous_amended` at `dataAA`, text `"aaaa"`,
entry 4. -/
theorem c3_previous_amended_witness :
    ((⟨[97, 97, 97, 97], 4⟩ : StringCursor).position ≤
      (⟨[97, 97, 97, 97], 4⟩ : StringCursor).text.length) ∧
    (((⟨[0, 0], ⟨[97, 97, 97, 97], 3⟩, 3, true⟩ : PrevRes).ok = false ↔
        (⟨[97, 97, 97, 97], 4⟩ : StringCursor).position = 0) ∧
      ((⟨[0, 0], ⟨[97, 97, 97, 97], 3⟩, 3, true⟩ : PrevRes).ok = true →
        (⟨[0, 0], ⟨[97, 97, 97, 97], 3⟩, 3, true⟩ : PrevRes).pos <
            ((⟨[97, 97, 97, 97], 4⟩ : StringCursor).position : Int) ∧
          ((⟨[0, 0], ⟨[97, 97, 97, 97], 3⟩, 3, true⟩ : PrevRes).cursor.position : Int) =
            (⟨[0, 0], ⟨[97, 97, 97, 97], 3⟩, 3, true⟩ : PrevRes).pos ∧
          (⟨[0, 0], ⟨[97, 97, 97, 97], 3⟩, 3, true⟩ : PrevRes).cursor.text =
            (⟨[97, 97, 97, 97], 4⟩ : StringCursor).text)) :=
  ⟨by decide,
   c3_previous_amended dataAA [0, 0] ⟨[97, 97, 97, 97], 4⟩ 10
     ⟨[0, 0], ⟨[97, 97, 97, 97], 3⟩, 3, true⟩ (by decide) (by decide)⟩

/-! ## Claim C4 -/

/-- A small-type trie used for the trie claims: `highStart = 0x2000`,
16-bit data, with the fast-path index and the multi-level index resolving
code point 0x1000 to the distinct values 7 and 9. -/
def trieS8 : UcpTrie :=
  ⟨UcpTrieType.small, UcpTrieValueWidth.w16, 61, 0x2000,
   (((List.replicate 71 0).set 64 50).set 58 70).set 70 60,
   [], ((List.replicate 61 0).set 50 7).set 60 9, []⟩

/-- Claim C4 is right and the code is wrong: for **every** trie,
`fastGet(-1)` panics — a negative code point passes the
`int32(codePoint) <= fastMax` test, so `fastIndex` computes the negative
slice index `-1 >> 6 = -1` and the Go runtime panics (modelled as
`none`) — instead of returning the error value at `dataLength - 1` as
`fastGet`'s own doc comment promises.  For code points above U+10FFFF
the error value *is* returned (second and third conjuncts, on the
concrete trie `trieA`, whose error value is `data16[33] = 3`). -/
theorem c4_fastGet_negative_panics :
    (∀ t : UcpTrie, UcpTrie.fastGet t (-1) = none) ∧
    UcpTrie.fastGet trieA 0x110000 = some 3 ∧
    idxGet trieA.data16 (trieA.dataLength - 1) = some 3 := by
  refine ⟨fun t => rfl, by decide, by decide⟩

/-! ## Claim C5 -/

/-- Claim C5 as stated is false: `StringCursor.SetPosition` performs no
code-point-boundary check.  On the text `"é"` (bytes `C3 A9`), position 1
lies strictly inside the two-byte rune, yet `SetPosition 1` succeeds. -/
theorem c5_counterexample :
    StringCursor.SetPosition ⟨[0xC3, 0xA9], 0⟩ 1 = some ⟨[0xC3, 0xA9], 1⟩ ∧
    ¬ IsBoundary [0xC3, 0xA9] 1 := by
  constructor
  · decide
  · decide

/-- Claim C5, amended: `SetPosition p` fails exactly when `p` is out of
range (`p < 0` or `p > len(text)`) — mid-rune positions inside the range
are accepted; the end-of-text position always succeeds; on success the
position becomes `p` (on failure the Go method returns before assigning,
leaving the cursor unchanged, which this embedding models by returning
`none`). -/
theorem c5_setPosition_amended (c : StringCursor) (p : Int) :
    (StringCursor.SetPosition c p = none ↔ (p < 0 ∨ (c.text.length : Int) < p)) ∧
    (0 ≤ p → p ≤ (c.text.length : Int) →
      StringCursor.SetPosition c p = some ⟨c.text, p.toNat⟩) ∧
    StringCursor.SetPosition c (c.text.length : Int) = some ⟨c.text, c.text.length⟩ := by
  refine ⟨StringCursor.SetPosition_none_iff c p, StringCursor.SetPosition_some c p, ?_⟩
  rw [StringCursor.SetPosition_some c (c.text.length : Int) (by omega) (by omega)]
  simp

/-- Witness for `c5_setPosition_amended` on the text `"é"` at `p = 1`. -/
theorem c5_setPosition_amended_witness :
    ((StringCursor.SetPosition ⟨[0xC3, 0xA9], 0⟩ 1 = none ↔
        ((1 : Int) < 0 ∨ ((([0xC3, 0xA9] : List Nat).length : Int) < 1))) ∧
      ((0 : Int) ≤ 1 → (1 : Int) ≤ (([0xC3, 0xA9] : List Nat).length : Int) →
        StringCursor.SetPosition ⟨[0xC3, 0xA9], 0⟩ 1 = some ⟨[0xC3, 0xA9], (1 : Int).toNat⟩) ∧
      StringCursor.SetPosition ⟨[0xC3, 0xA9], 0⟩ (([0xC3, 0xA9] : List Nat).length : Int) =
        some ⟨[0xC3, 0xA9], ([0xC3, 0xA9] : List Nat).length⟩) ∧
    StringCursor.SetPosition ⟨[0xC3, 0xA9], 0⟩ 1 = some ⟨[0xC3, 0xA9], 1⟩ :=
  ⟨c5_setPosition_amended ⟨[0xC3, 0xA9], 0⟩ 1, by decide⟩

/-! ## Claim C8 -/

/-- Modelled from the spec (§4.2): the trie lookup the spec describes,
in which the one-level fast path is used only up to a fast limit that
depends on the trie type — `0xFFFF` for fast tries but the smaller
`UCPTRIE_SMALL_MAX = 0x0FFF` for small tries. -/
def specTypedGet (t : UcpTrie) (codePoint : Int) : Option Nat :=
  (UcpTrie.codePointIndex t
      (match t.trieType with
        | UcpTrieType.fast => 0xFFFF
        | UcpTrieType.small => 0x0FFF) codePoint).bind (UcpTrie.readData t)

/-- Claim C8 as stated is false: the code's `fastGet` hardcodes the fast
limit `0xFFFF` for every trie type.  On the small trie `trieS8`, code
point 0x1000 (above the small-trie fast limit 0x0FFF and below
`highStart`) is resolved through the one-level fast path, yielding 7,
whereas the spec's type-dependent lookup descends the multi-level path
and yields 9. -/
theorem c8_counterexample :
    UcpTrie.fastGet trieS8 0x1000 = some 7 ∧
    specTypedGet trieS8 0x1000 = some 9 ∧
    UcpTrie.fastGet trieS8 0x1000 ≠ specTypedGet trieS8 0x1000 := by
  refine ⟨?_, ?_, ?_⟩ <;> decide

/-- Claim C8, amended: the trie lookup `fastGet` uses the one-level fast
index path for exactly the code points up to `0xFFFF` regardless of the
trie type, and code points above `0xFFFF` (up to U+10FFFF and below
`highStart`) are resolved by descending the multi-level
index-1/index-2/index-3 path. -/
theorem c8_fastGet_amended (t : UcpTrie) (cp : Int) :
    (cp ≤ 0xFFFF →
      UcpTrie.fastGet t cp = (UcpTrie.fastIndex t cp).bind (UcpTrie.readData t)) ∧
    (0xFFFF < cp → cp ≤ 0x10FFFF → cp < t.highStart →
      UcpTrie.fastGet t cp =
        (UcpTrie.internalSmallIndex t cp).bind (UcpTrie.readData t)) := by
  constructor
  · intro hle
    unfold UcpTrie.fastGet UcpTrie.codePointIndex
    rw [if_pos hle]
  · intro hgt hcap hhs
    unfold UcpTrie.fastGet UcpTrie.codePointIndex UcpTrie.smallIndex
    rw [if_neg (by omega), if_pos hcap, if_neg (by omega)]

/-- Witness for `c8_fastGet_amended`: the fast path taken at 0x1000 on
the small trie `trieS8`, and the multi-level path taken at 0x10000 on
`trieA`. -/
theorem c8_fastGet_amended_witness :
    UcpTrie.fastGet trieS8 0x1000 =
      (UcpTrie.fastIndex trieS8 0x1000).bind (UcpTrie.readData trieS8) ∧
    UcpTrie.fastGet trieA 0x10000 =
      (UcpTrie.internalSmallIndex trieA 0x10000).bind (UcpTrie.readData trieA) :=
  ⟨(c8_fastGet_amended trieS8 0x1000).1 (by decide),
   (c8_fastGet_amended trieA 0x10000).2 (by decide) (by decide) (by decide)⟩

end Rbbi
